import Mathlib

/-!
# pcbre vertex arrays (`csrc/va`)

A shallow embedding of the growable vertex buffer of `va.h` / `va_template.c`,
of the typed appenders of `va_xy.c`, `va_char.c`, `va_trace.c` and `va_via.c`,
of the shape generators of `va_xy.c` and of `tex_extend_project`.

Modelling conventions

* `size_t` is a 64-bit unsigned integer: a `Nat` reduced `% 2^64` wherever the
  C code computes a sum or a product.
* `float` values are exact rationals (`ℚ`); `sizeof(float) = 4`.
* The storage block of a buffer is a list of slots, one slot per element of
  `stride` bytes; a slot is the list of the `float` words it holds.  The length
  of the list is the number of slots really allocated, which the C code tracks
  separately in the `size` field.
* Every operation returns `Except (Fault × vertex_array) _`: a run either
  returns normally, or stops with a fault together with the buffer header as it
  was when the run stopped.  `abort()` and a failed `assert` are faults; so are
  the behaviours C leaves undefined (an access outside the storage block, a
  division by zero).  Assertions are modelled as compiled in.
* `calloc(n, s)` succeeds exactly when `n * s` is representable in `size_t`
  (it returns `NULL` on overflow); running out of memory is not modelled.
* The library functions `cosf` and `sinf` are parameters of the generators
  that call them; `M_PI` is the decimal constant of `va_xy.c`.  A rational
  division by zero yields 0 where IEEE arithmetic yields NaN or infinity; this
  touches only the coordinates computed with `n_step = 0` and with `r = 0`.
-/

namespace VA

/-- Largest value of `size_t`. -/
def SIZE_MAX : Nat := 2 ^ 64 - 1

/-- Ways a run can stop without returning. -/
inductive Fault where
  /-- a call of `abort()` -/
  | abort
  /-- a failed `assert(...)` -/
  | assert_fail
  /-- a read or write outside the allocated storage block -/
  | out_of_bounds
  /-- an integer division by zero -/
  | div_by_zero
  /-- a byte copy that ends inside a slot; arises only after `size_t`
  wraparound and has no slot-level description -/
  | torn_slot
  /-- a loop that never exits -/
  | hang
  deriving DecidableEq, Repr

/-- One element of storage: the `float` words of a record. -/
abbrev Slot := List ℚ

/-- The record `struct vertex_array` of `va.h`; `data` is the block `data` points to. -/
structure vertex_array where
  size : Nat
  count : Nat
  index : Nat
  stride : Nat
  data : List Slot
  deriving DecidableEq, Repr

deriving instance DecidableEq for Except

/-- Outcome of an operation on one buffer. -/
abbrev Result := Except (Fault × vertex_array) vertex_array

/-- A slot of `stride` zero bytes, read as `float` words. -/
def zero_slot (stride : Nat) : Slot := List.replicate (stride / 4) 0

/-- Library `calloc(n, stride)`: a zero-filled block of `n` slots, or `none`
(`NULL`) when `n * stride` does not fit in `size_t`. -/
def calloc (n stride : Nat) : Option (List Slot) :=
  if n * stride ≤ SIZE_MAX then some (List.replicate n (zero_slot stride)) else none

/-- Library `memcpy(dst + off, src, bytes)` on blocks whose slots are `stride`
bytes wide, `off` and `bytes` being byte counts. -/
def memcpy (dst : List Slot) (off : Nat) (src : List Slot) (bytes stride : Nat) :
    Except Fault (List Slot) :=
  if off + bytes > dst.length * stride ∨ bytes > src.length * stride then
    .error .out_of_bounds
  else if off % stride ≠ 0 ∨ bytes % stride ≠ 0 then
    .error .torn_slot
  else
    .ok (dst.take (off / stride) ++ src.take (bytes / stride)
          ++ dst.drop (off / stride + bytes / stride))

/-- Function `vertex_array_alloc(n, stride)`; `none` is the `NULL` return. -/
def vertex_array_alloc (n stride : Nat) : Option vertex_array :=
  match calloc n stride with
  | none => none
  | some block => some { size := n, count := 0, index := 0, stride := stride, data := block }

/-- The loop `while (new_size > va->size + n) va->size = va->size * 2;` of
`_vertex_array_check_grow`, run for at most `fuel` tests of its condition.
The result is the value of `va->size` on exit, `none` if the loop is still
running when the fuel is spent. -/
def grow_loop : Nat → Nat → Nat → Nat → Option Nat
  | 0, _, _, _ => none
  | fuel + 1, new_size, size, n =>
    if new_size > (size + n) % 2 ^ 64 then
      grow_loop fuel new_size ((size * 2) % 2 ^ 64) n
    else some size

/-- Function `_vertex_array_check_grow(va, n)` of `va_template.c`.
The loop gets 65 tests of its condition: `va->size` is zero after 64 doublings,
so a loop still running then runs forever (`grow_loop_hang`). -/
def _vertex_array_check_grow (va : vertex_array) (n : Nat) : Result :=
  if va.stride = 0 then .error (.div_by_zero, va)
  else if va.size > SIZE_MAX / 2 / va.stride then .error (.abort, va)
  else
    let new_size := va.size
    match grow_loop 65 new_size va.size n with
    | none => .error (.hang, va)
    | some size1 =>
      let va1 := { va with size := size1 }
      let new_size := if new_size = 0 then 1024 else new_size
      match calloc new_size va1.stride with
      | none => .error (.abort, va1)
      | some new_block =>
        match memcpy new_block 0 va1.data ((va1.size * va1.stride) % 2 ^ 64) va1.stride with
        | .error f => .error (f, va1)
        | .ok block => .ok { va1 with size := new_size, data := block }

/-- Inline function `vertex_array_check_grow(va, n)` of `va.h`. -/
def vertex_array_check_grow (va : vertex_array) (n : Nat) : Result :=
  if va.size > SIZE_MAX - n then .error (.abort, va)
  else if (va.index + n) % 2 ^ 64 ≤ va.size then .ok va
  else _vertex_array_check_grow va n

/-- Function `vertex_array_clear(va)`. -/
def vertex_array_clear (va : vertex_array) : vertex_array :=
  { va with index := 0, count := 0 }

/-- Function `vertex_array_seek_set(va, n)`. -/
def vertex_array_seek_set (va : vertex_array) (n : Nat) : Result :=
  if ¬ n < va.size then .error (.assert_fail, va)
  else
    let va1 := { va with index := n }
    if va1.count < n then .ok { va1 with count := n } else .ok va1

/-- Function `vertex_array_concat(dest, src)`.  Both buffers are returned, the
destination first; the two are distinct objects. -/
def vertex_array_concat (dest src : vertex_array) :
    Except (Fault × vertex_array) (vertex_array × vertex_array) :=
  if dest.stride ≠ src.stride then .error (.assert_fail, dest)
  else
    match vertex_array_check_grow dest src.count with
    | .error e => .error e
    | .ok dest1 =>
      match memcpy dest1.data ((dest1.index * dest1.stride) % 2 ^ 64) src.data
          ((src.count * src.stride) % 2 ^ 64) dest1.stride with
      | .error f => .error (f, dest1)
      | .ok block =>
        let dest2 := { dest1 with data := block, index := (dest1.index + src.count) % 2 ^ 64 }
        if dest2.count < dest2.index then .ok ({ dest2 with count := dest2.index }, src)
        else .ok (dest2, src)

/-- Function `vertex_array_tell(va)`. -/
def vertex_array_tell (va : vertex_array) : Nat := va.index

/-- Function `vertex_array_count(va)`. -/
def vertex_array_count (va : vertex_array) : Nat := va.count

/-- Function `vertex_array_size(va)`. -/
def vertex_array_size (va : vertex_array) : Nat := va.size

/-- Function `vertex_array_stride(va)`. -/
def vertex_array_stride (va : vertex_array) : Nat := va.stride

/-- Function `vertex_array_size_bytes(va)`. -/
def vertex_array_size_bytes (va : vertex_array) : Nat := (va.count * va.stride) % 2 ^ 64

/-- Function `vertex_array_raw(va)`: the storage block. -/
def vertex_array_raw (va : vertex_array) : List Slot := va.data

/-- The macro `CHECK(n)` of the typed appender files, `sz` being the `sizeof`
of the file's record type:
`{ assert(va->stride == sizeof(...)); vertex_array_check_grow(va, (n)); }`. -/
def CHECK (sz : Nat) (va : vertex_array) (n : Nat) : Result :=
  if va.stride ≠ sz then .error (.assert_fail, va) else vertex_array_check_grow va n

/-- The stores `ptr[va->index].f = ...` of an unchecked appender, which fill
the whole slot at the cursor with the record `r`. -/
def store_at_index (va : vertex_array) (r : Slot) : Result :=
  if va.index < va.data.length then .ok { va with data := va.data.set va.index r }
  else .error (.out_of_bounds, va)

/-- The tail `va->index++; va->count = va->index;` of an unchecked appender. -/
def advance (va : vertex_array) : vertex_array :=
  let va1 := { va with index := (va.index + 1) % 2 ^ 64 }
  { va1 with count := va1.index }

/-- Value of `sizeof(struct vertex_xy)`: two floats. -/
def sizeof_vertex_xy : Nat := 8

/-- Value of `sizeof(struct inst_tex)`: four floats. -/
def sizeof_inst_tex : Nat := 16

/-- Value of `sizeof(struct inst_trace)`: five floats. -/
def sizeof_inst_trace : Nat := 20

/-- Value of `sizeof(struct inst_via)`: four floats. -/
def sizeof_inst_via : Nat := 16

/-- Static function `_vertex_xy_array_append(va, x, y)` of `va_xy.c`. -/
def _vertex_xy_array_append (va : vertex_array) (x y : ℚ) : Result :=
  if va.stride ≠ sizeof_vertex_xy then .error (.assert_fail, va)
  else (store_at_index va [x, y]).map advance

/-- Function `vertex_xy_array_append(va, x, y)` of `va_xy.c`. -/
def vertex_xy_array_append (va : vertex_array) (x y : ℚ) : Result :=
  CHECK sizeof_vertex_xy va 1 >>= fun va => _vertex_xy_array_append va x y

/-- Static function `_tex_array_append(va, x, y, tx, ty)` of `va_char.c`. -/
def _tex_array_append (va : vertex_array) (x y tx ty : ℚ) : Result :=
  if va.stride ≠ sizeof_inst_tex then .error (.assert_fail, va)
  else (store_at_index va [x, y, tx, ty]).map advance

/-- Function `tex_array_append(va, x, y, tx, ty)` of `va_char.c`. -/
def tex_array_append (va : vertex_array) (x y tx ty : ℚ) : Result :=
  CHECK sizeof_inst_tex va 1 >>= fun va => _tex_array_append va x y tx ty

/-- Static function `_trace_array_append(va, ax, ay, bx, by, t)` of `va_trace.c`. -/
def _trace_array_append (va : vertex_array) (ax ay bx «by» t : ℚ) : Result :=
  if va.stride ≠ sizeof_inst_trace then .error (.assert_fail, va)
  else (store_at_index va [ax, ay, bx, «by», t]).map advance

/-- Function `trace_array_append(va, ax, ay, bx, by, t)` of `va_trace.c`. -/
def trace_array_append (va : vertex_array) (ax ay bx «by» t : ℚ) : Result :=
  CHECK sizeof_inst_trace va 1 >>= fun va => _trace_array_append va ax ay bx «by» t

/-- Static function `_via_array_append(va, x, y, r, r_inside)` of `va_via.c`. -/
def _via_array_append (va : vertex_array) (x y r r_inside : ℚ) : Result :=
  if va.stride ≠ sizeof_inst_via then .error (.assert_fail, va)
  else (store_at_index va [x, y, r, (r_inside / r) * (r_inside / r)]).map advance

/-- Function `via_array_append(va, x, y, r, r_inside)` of `va_via.c`. -/
def via_array_append (va : vertex_array) (x y r r_inside : ℚ) : Result :=
  CHECK sizeof_inst_via va 1 >>= fun va => _via_array_append va x y r r_inside

/-- Appending a list of plain vertices one at a time, first to last, with
`vertex_xy_array_append`. -/
def append_all (va : vertex_array) : List (ℚ × ℚ) → Result
  | [] => .ok va
  | (x, y) :: rest => vertex_xy_array_append va x y >>= fun va1 => append_all va1 rest

/-- A fresh plain-vertex buffer of capacity `c0`, then the appends of `recs`;
`none` when the allocation returns `NULL`. -/
def alloc_then_append (c0 : Nat) (recs : List (ℚ × ℚ)) : Option Result :=
  (vertex_array_alloc c0 sizeof_vertex_xy).map fun va => append_all va recs

/-- The record a plain vertex occupies in storage. -/
def xy_slot (r : ℚ × ℚ) : Slot := [r.1, r.2]

/-- Well-formed buffer states: the block has `size` slots, its byte size is
representable, and cursor and count lie within the capacity. -/
def valid (va : vertex_array) : Prop :=
  va.data.length = va.size ∧ va.size * va.stride ≤ SIZE_MAX ∧
    va.index ≤ va.size ∧ va.count ≤ va.size

instance (va : vertex_array) : Decidable (valid va) := by
  unfold valid
  exact inferInstance

/-- The counted loop `for (size_t i = i0; i < i0 + cnt; i++) body`, with the
loop variable starting at `i0` and `cnt` iterations to go. -/
def for_loop (body : vertex_array → Nat → Result) : Nat → Nat → vertex_array → Result
  | _, 0, va => .ok va
  | i, cnt + 1, va => body va i >>= fun va1 => for_loop body (i + 1) cnt va1

/-- The constant `M_PI` as `va_xy.c` defines it: the decimal
`3.14159265358979323846`. -/
def M_PI : ℚ := 314159265358979323846 / 100000000000000000000

/-- The constant `HALF_PI`, defined as `(M_PI/2)`. -/
def HALF_PI : ℚ := M_PI / 2

/-- Static function `_vertex_xy_array_line(va, x0, y0, x1, y1)`: two calls of the
checked appender. -/
def _vertex_xy_array_line (va : vertex_array) (x0 y0 x1 y1 : ℚ) : Result :=
  vertex_xy_array_append va x0 y0 >>= fun va => vertex_xy_array_append va x1 y1

/-- Function `vertex_xy_array_line(va, x0, y0, x1, y1)`. -/
def vertex_xy_array_line (va : vertex_array) (x0 y0 x1 y1 : ℚ) : Result :=
  CHECK sizeof_vertex_xy va 2 >>= fun va => _vertex_xy_array_line va x0 y0 x1 y1

/-- Function `vertex_xy_array_bench(va, count)`. -/
def vertex_xy_array_bench (va : vertex_array) (count : Nat) : Result :=
  for_loop (fun va _ => vertex_xy_array_append va (12 / 10) (12 / 10)) 0 count va

/-- Function `vertex_xy_array_aligned_box(va, cx, cy, w, h)`. -/
def vertex_xy_array_aligned_box (va : vertex_array) (cx cy w h : ℚ) : Result :=
  CHECK sizeof_vertex_xy va 8 >>= fun va =>
  let x_1 := cx - w / 2
  let x_2 := cx + w / 2
  let y_1 := cy - h / 2
  let y_2 := cy + h / 2
  _vertex_xy_array_line va x_1 y_1 x_2 y_1 >>= fun va =>
  _vertex_xy_array_line va x_2 y_1 x_2 y_2 >>= fun va =>
  _vertex_xy_array_line va x_2 y_2 x_1 y_2 >>= fun va =>
  _vertex_xy_array_line va x_1 y_2 x_1 y_1

/-- Function `vertex_xy_array_box(va, cx, cy, w, h, theta)`; `cosf` and `sinf`
are the library functions. -/
def vertex_xy_array_box (cosf sinf : ℚ → ℚ) (va : vertex_array) (cx cy w h theta : ℚ) :
    Result :=
  CHECK sizeof_vertex_xy va 8 >>= fun va =>
  let cos_t := cosf theta
  let sin_t := sinf theta
  let x_a := cos_t * w / 2
  let y_a := sin_t * w / 2
  let x_b := -sin_t * h / 2
  let y_b := cos_t * h / 2
  let x_1 := x_a - x_b
  let y_1 := y_a - y_b
  let x_2 := x_a + x_b
  let y_2 := y_a + y_b
  _vertex_xy_array_line va (cx - x_2) (cy - y_2) (cx + x_1) (cy + y_1) >>= fun va =>
  _vertex_xy_array_line va (cx + x_1) (cy + y_1) (cx + x_2) (cy + y_2) >>= fun va =>
  _vertex_xy_array_line va (cx + x_2) (cy + y_2) (cx - x_1) (cy - y_1) >>= fun va =>
  _vertex_xy_array_line va (cx - x_1) (cy - y_1) (cx - x_2) (cy - y_2)

/-- The point sampled at step `i` of corner `corner` in
`vertex_xy_array_roundrect`: the corner centre `(x, y)` chosen by the `switch`,
moved by `corner_r` along the angle `c_t`. -/
def roundrect_corner_point (cosf sinf : ℚ → ℚ) (cx cy w h theta corner_r : ℚ)
    (n_corner_step corner i : Nat) : ℚ × ℚ :=
  let cos_t := cosf theta
  let sin_t := sinf theta
  let x_a_c := cos_t * (w / 2 - corner_r)
  let y_a_c := sin_t * (w / 2 - corner_r)
  let x_b_c := -sin_t * (h / 2 - corner_r)
  let y_b_c := cos_t * (h / 2 - corner_r)
  let xy : ℚ × ℚ :=
    match corner with
    | 0 => (cx + x_a_c + x_b_c, cy + y_a_c + y_b_c)
    | 1 => (cx - x_a_c + x_b_c, cy - y_a_c + y_b_c)
    | 2 => (cx - x_a_c - x_b_c, cy - y_a_c - y_b_c)
    | _ => (cx + x_a_c - x_b_c, cy + y_a_c - y_b_c)
  let c_t := ((i : ℚ) / (n_corner_step : ℚ) + (corner : ℚ)) * HALF_PI + theta
  let cos_2 := cosf c_t * corner_r
  let sin_2 := sinf c_t * corner_r
  (xy.1 + cos_2, xy.2 + sin_2)

/-- Body of the inner loop of `vertex_xy_array_roundrect`: one unchecked
append of the sampled point, and a second one unless the step is the first or
the last of the corner. -/
def roundrect_step (cosf sinf : ℚ → ℚ) (cx cy w h theta corner_r : ℚ)
    (n_corner_step corner : Nat) (va : vertex_array) (i : Nat) : Result :=
  let pt := roundrect_corner_point cosf sinf cx cy w h theta corner_r n_corner_step corner i
  _vertex_xy_array_append va pt.1 pt.2 >>= fun va =>
  if i ≠ 0 ∧ i ≠ n_corner_step then _vertex_xy_array_append va pt.1 pt.2 else .ok va

/-- Function `vertex_xy_array_roundrect(va, cx, cy, w, h, theta, corner_r,
n_corner_step)`.  The `switch` over `corner` has the cases 0 to 3, the values
the loop gives it. -/
def vertex_xy_array_roundrect (cosf sinf : ℚ → ℚ) (va : vertex_array)
    (cx cy w h theta corner_r : ℚ) (n_corner_step : Nat) : Result :=
  let n_verts := ((n_corner_step + 1) * 2 * 4 + 8) % 2 ^ 64
  CHECK sizeof_vertex_xy va n_verts >>= fun va =>
  let cos_t := cosf theta
  let sin_t := sinf theta
  let x_a := cos_t * w / 2
  let y_a := sin_t * w / 2
  let x_a_c := cos_t * (w / 2 - corner_r)
  let y_a_c := sin_t * (w / 2 - corner_r)
  let x_b := -sin_t * h / 2
  let y_b := cos_t * h / 2
  let x_b_c := -sin_t * (h / 2 - corner_r)
  let y_b_c := cos_t * (h / 2 - corner_r)
  _vertex_xy_array_line va (cx - x_a_c - x_b) (cy - y_a_c - y_b)
      (cx + x_a_c - x_b) (cy + y_a_c - y_b) >>= fun va =>
  _vertex_xy_array_line va (cx + x_a - x_b_c) (cy + y_a - y_b_c)
      (cx + x_a + x_b_c) (cy + y_a + y_b_c) >>= fun va =>
  _vertex_xy_array_line va (cx + x_a_c + x_b) (cy + y_a_c + y_b)
      (cx - x_a_c + x_b) (cy - y_a_c + y_b) >>= fun va =>
  _vertex_xy_array_line va (cx - x_a + x_b_c) (cy - y_a + y_b_c)
      (cx - x_a - x_b_c) (cy - y_a - y_b_c) >>= fun va =>
  for_loop (fun va corner =>
      for_loop (roundrect_step cosf sinf cx cy w h theta corner_r n_corner_step corner)
        0 ((n_corner_step + 1) % 2 ^ 64) va)
    0 4 va

/-- The point sampled at step `i` of `vertex_xy_array_circle`. -/
def circle_point (cosf sinf : ℚ → ℚ) (cx cy r : ℚ) (n_step i : Nat) : ℚ × ℚ :=
  let theta := (i : ℚ) / (n_step : ℚ) * M_PI * 2
  (cx + cosf theta * r, cy + sinf theta * r)

/-- Body of the loop of `vertex_xy_array_circle`. -/
def circle_step (cosf sinf : ℚ → ℚ) (cx cy r : ℚ) (n_step : Nat) (va : vertex_array)
    (i : Nat) : Result :=
  let pt := circle_point cosf sinf cx cy r n_step i
  _vertex_xy_array_append va pt.1 pt.2 >>= fun va =>
  if i ≠ 0 ∧ i ≠ n_step then _vertex_xy_array_append va pt.1 pt.2 else .ok va

/-- Function `vertex_xy_array_circle(va, cx, cy, r, n_step)`. -/
def vertex_xy_array_circle (cosf sinf : ℚ → ℚ) (va : vertex_array) (cx cy r : ℚ)
    (n_step : Nat) : Result :=
  CHECK sizeof_vertex_xy va (((n_step + 1) * 2) % 2 ^ 64) >>= fun va =>
  for_loop (circle_step cosf sinf cx cy r n_step) 0 ((n_step + 1) % 2 ^ 64) va

/-- The span `delta_theta` of `vertex_xy_array_arc`: `theta1 - theta0`, plus
`M_PI * 2` if that is negative. -/
def arc_delta_theta (theta0 theta1 : ℚ) : ℚ :=
  let delta_theta := theta1 - theta0
  if delta_theta < 0 then delta_theta + M_PI * 2 else delta_theta

/-- The angle `theta` of step `i` of `vertex_xy_array_arc`. -/
def arc_theta (theta0 theta1 : ℚ) (n_step i : Nat) : ℚ :=
  (i : ℚ) / (n_step : ℚ) * arc_delta_theta theta0 theta1 + theta0

/-- The point sampled at step `i` of `vertex_xy_array_arc`. -/
def arc_point (cosf sinf : ℚ → ℚ) (cx cy r theta0 theta1 : ℚ) (n_step i : Nat) : ℚ × ℚ :=
  let theta := arc_theta theta0 theta1 n_step i
  (cx + cosf theta * r, cy + sinf theta * r)

/-- Body of the loop of `vertex_xy_array_arc`. -/
def arc_step (cosf sinf : ℚ → ℚ) (cx cy r theta0 theta1 : ℚ) (n_step : Nat)
    (va : vertex_array) (i : Nat) : Result :=
  let pt := arc_point cosf sinf cx cy r theta0 theta1 n_step i
  _vertex_xy_array_append va pt.1 pt.2 >>= fun va =>
  if i ≠ 0 ∧ i ≠ n_step then _vertex_xy_array_append va pt.1 pt.2 else .ok va

/-- Function `vertex_xy_array_arc(va, cx, cy, r, theta0, theta1, n_step)`. -/
def vertex_xy_array_arc (cosf sinf : ℚ → ℚ) (va : vertex_array) (cx cy r theta0 theta1 : ℚ)
    (n_step : Nat) : Result :=
  CHECK sizeof_vertex_xy va (((n_step + 1) * 2) % 2 ^ 64) >>= fun va =>
  for_loop (arc_step cosf sinf cx cy r theta0 theta1 n_step) 0 ((n_step + 1) % 2 ^ 64) va

/-- The record `tex_extend_project` writes for the source record `s`: the
position fields through the transform, the texture fields as they are. -/
def project_record (c0 c1 c2 c3 c4 c5 : ℚ) (s : Slot) : Slot :=
  [c0 * s.getD 0 0 + c1 * s.getD 1 0 + c2, c3 * s.getD 0 0 + c4 * s.getD 1 0 + c5,
    s.getD 2 0, s.getD 3 0]

/-- Body of the loop of `tex_extend_project`: read `src_p[i]`, fill
`dest_p[i]`, where `dest_p` is `dest->data` moved by `dest->index` records. -/
def project_step (src : vertex_array) (c0 c1 c2 c3 c4 c5 : ℚ) (dest : vertex_array)
    (i : Nat) : Result :=
  match src.data[i]? with
  | none => .error (.out_of_bounds, dest)
  | some s =>
    if dest.index + i < dest.data.length then
      .ok { dest with data := dest.data.set (dest.index + i) (project_record c0 c1 c2 c3 c4 c5 s) }
    else .error (.out_of_bounds, dest)

/-- Function `tex_extend_project(dest, src, c0, c1, c2, c3, c4, c5)` of
`va_char.c`.  Both buffers are returned, the destination first; the two are
distinct objects. -/
def tex_extend_project (dest src : vertex_array) (c0 c1 c2 c3 c4 c5 : ℚ) :
    Except (Fault × vertex_array) (vertex_array × vertex_array) :=
  if dest.stride ≠ sizeof_inst_tex then .error (.assert_fail, dest)
  else if src.stride ≠ sizeof_inst_tex then .error (.assert_fail, dest)
  else
    match vertex_array_check_grow dest src.count with
    | .error e => .error e
    | .ok dest1 =>
      if dest1.data.length < dest1.index then .error (.out_of_bounds, dest1)
      else
        match for_loop (project_step src c0 c1 c2 c3 c4 c5) 0 src.count dest1 with
        | .error e => .error e
        | .ok dest2 =>
          let dest3 := { dest2 with index := (dest2.index + src.count) % 2 ^ 64 }
          if dest3.count < dest3.index then .ok ({ dest3 with count := dest3.index }, src)
          else .ok (dest3, src)

/-- Unchecked appends of a list of plain vertices, first to last, with
`_vertex_xy_array_append`. -/
def raw_append_all (va : vertex_array) : List (ℚ × ℚ) → Result
  | [] => .ok va
  | p :: rest => _vertex_xy_array_append va p.1 p.2 >>= fun va1 => raw_append_all va1 rest

/-- The vertices a curve loop passes to the unchecked appender at step `i`:
the sample once at the first and the last step, twice in between. -/
def curve_emit (p : Nat → ℚ × ℚ) (n_step i : Nat) : List (ℚ × ℚ) :=
  if i ≠ 0 ∧ i ≠ n_step then [p i, p i] else [p i]

/-- The vertices emitted by `cnt` consecutive loop steps from step `i` on. -/
def emit_range (e : Nat → List (ℚ × ℚ)) : Nat → Nat → List (ℚ × ℚ)
  | _, 0 => []
  | i, cnt + 1 => e i ++ emit_range e (i + 1) cnt

/-- A line list of `cnt` segments over the samples `p`, from sample `i` on:
segment `k` is the pair `p (i + k)`, `p (i + k + 1)`. -/
def segments (p : Nat → ℚ × ℚ) : Nat → Nat → List (ℚ × ℚ)
  | _, 0 => []
  | i, cnt + 1 => p i :: p (i + 1) :: segments p (i + 1) cnt

/-- The eight vertices `vertex_xy_array_aligned_box` passes to its four line
calls, in call order. -/
def aligned_box_points (cx cy w h : ℚ) : List (ℚ × ℚ) :=
  let x_1 := cx - w / 2
  let x_2 := cx + w / 2
  let y_1 := cy - h / 2
  let y_2 := cy + h / 2
  [(x_1, y_1), (x_2, y_1), (x_2, y_1), (x_2, y_2), (x_2, y_2), (x_1, y_2), (x_1, y_2), (x_1, y_1)]

/-- The eight vertices `vertex_xy_array_roundrect` passes to its four line
calls (bottom, right, top, left), in call order. -/
def roundrect_edge_points (cosf sinf : ℚ → ℚ) (cx cy w h theta corner_r : ℚ) :
    List (ℚ × ℚ) :=
  let cos_t := cosf theta
  let sin_t := sinf theta
  let x_a := cos_t * w / 2
  let y_a := sin_t * w / 2
  let x_a_c := cos_t * (w / 2 - corner_r)
  let y_a_c := sin_t * (w / 2 - corner_r)
  let x_b := -sin_t * h / 2
  let y_b := cos_t * h / 2
  let x_b_c := -sin_t * (h / 2 - corner_r)
  let y_b_c := cos_t * (h / 2 - corner_r)
  [(cx - x_a_c - x_b, cy - y_a_c - y_b), (cx + x_a_c - x_b, cy + y_a_c - y_b),
   (cx + x_a - x_b_c, cy + y_a - y_b_c), (cx + x_a + x_b_c, cy + y_a + y_b_c),
   (cx + x_a_c + x_b, cy + y_a_c + y_b), (cx - x_a_c + x_b, cy - y_a_c + y_b),
   (cx - x_a + x_b_c, cy - y_a + y_b_c), (cx - x_a - x_b_c, cy - y_a - y_b_c)]

/-- The vertices the corner loops of `vertex_xy_array_roundrect` pass to the
unchecked appender, corner after corner. -/
def roundrect_corner_emit (cosf sinf : ℚ → ℚ) (cx cy w h theta corner_r : ℚ)
    (n_corner_step : Nat) : List (ℚ × ℚ) :=
  emit_range (fun corner =>
      emit_range
        (curve_emit (roundrect_corner_point cosf sinf cx cy w h theta corner_r n_corner_step
          corner) n_corner_step)
        0 (n_corner_step + 1))
    0 4

/-- Two outcomes agree up to `R`: both runs return, with buffers related by
`R`, or both stop with the same fault. -/
def same_outcome (R : vertex_array → vertex_array → Prop) (r1 r2 : Result) : Prop :=
  match r1, r2 with
  | .ok v1, .ok v2 => R v1 v2
  | .error e1, .error e2 => e1.1 = e2.1
  | _, _ => False

/-- What a reader of two buffers can tell apart: `index`, `count`, `size` and
the records in the slots below `count`. -/
def same_visible (v1 v2 : vertex_array) : Prop :=
  v1.index = v2.index ∧ v1.count = v2.count ∧ v1.size = v2.size ∧
    ∀ i, i < v1.count → v1.data[i]? = v2.data[i]?

/-- Buffers with the same header and the same block length whose records
agree below the cursor, the count being at most the cursor. -/
def agree_below_cursor (v1 v2 : vertex_array) : Prop :=
  v1.size = v2.size ∧ v1.count = v2.count ∧ v1.index = v2.index ∧ v1.stride = v2.stride ∧
    v1.data.length = v2.data.length ∧ v1.count ≤ v1.index ∧
    ∀ i, i < v1.index → v1.data[i]? = v2.data[i]?

/-- The operations `va.h` and the appender files export, as calls on one
buffer; `concat` and `extend_project` name the other buffer they read. -/
inductive Op where
  | check_grow (n : Nat)
  | clear
  | seek_set (n : Nat)
  | concat (src : vertex_array)
  | xy_append (x y : ℚ)
  | bench (count : Nat)
  | line (x0 y0 x1 y1 : ℚ)
  | aligned_box (cx cy w h : ℚ)
  | box (cx cy w h theta : ℚ)
  | roundrect (cx cy w h theta corner_r : ℚ) (n_corner_step : Nat)
  | circle (cx cy r : ℚ) (n_step : Nat)
  | arc (cx cy r theta0 theta1 : ℚ) (n_step : Nat)
  | tex_append (x y tx ty : ℚ)
  | extend_project (src : vertex_array) (c0 c1 c2 c3 c4 c5 : ℚ)
  | trace_append (ax ay bx «by» t : ℚ)
  | via_append (x y r r_inside : ℚ)

/-- One call of an exported operation on the buffer `va`. -/
def apply_op (cosf sinf : ℚ → ℚ) (va : vertex_array) : Op → Result
  | .check_grow n => vertex_array_check_grow va n
  | .clear => .ok (vertex_array_clear va)
  | .seek_set n => vertex_array_seek_set va n
  | .concat src => (vertex_array_concat va src).map Prod.fst
  | .xy_append x y => vertex_xy_array_append va x y
  | .bench count => vertex_xy_array_bench va count
  | .line x0 y0 x1 y1 => vertex_xy_array_line va x0 y0 x1 y1
  | .aligned_box cx cy w h => vertex_xy_array_aligned_box va cx cy w h
  | .box cx cy w h theta => vertex_xy_array_box cosf sinf va cx cy w h theta
  | .roundrect cx cy w h theta corner_r n_corner_step =>
    vertex_xy_array_roundrect cosf sinf va cx cy w h theta corner_r n_corner_step
  | .circle cx cy r n_step => vertex_xy_array_circle cosf sinf va cx cy r n_step
  | .arc cx cy r theta0 theta1 n_step =>
    vertex_xy_array_arc cosf sinf va cx cy r theta0 theta1 n_step
  | .tex_append x y tx ty => tex_array_append va x y tx ty
  | .extend_project src c0 c1 c2 c3 c4 c5 =>
    (tex_extend_project va src c0 c1 c2 c3 c4 c5).map Prod.fst
  | .trace_append ax ay bx «by» t => trace_array_append va ax ay bx «by» t
  | .via_append x y r r_inside => via_array_append va x y r r_inside

/-- A sequence of calls of exported operations on one buffer, first to last. -/
def run_ops (cosf sinf : ℚ → ℚ) (va : vertex_array) : List Op → Result
  | [] => .ok va
  | op :: rest => apply_op cosf sinf va op >>= fun va1 => run_ops cosf sinf va1 rest

/-- A run that never divides by zero and, if it returns, returns a buffer of
stride `s`. -/
def keeps_divisor (s : Nat) (r : Result) : Prop :=
  (∀ st, r ≠ .error (.div_by_zero, st)) ∧ ∀ v, r = .ok v → v.stride = s

/-! ## The doubling loop -/

theorem double_mod_pow (s k M : Nat) : s * 2 % M * 2 ^ k % M = s * 2 ^ (k + 1) % M := by
  rw [Nat.mod_mul_mod]
  congr 1
  ring

theorem grow_loop_none_iff (fuel new_size size n : Nat) :
    grow_loop fuel new_size size n = none ↔
      ∀ k, k < fuel → new_size > ((size * 2 ^ k) % 2 ^ 64 + n) % 2 ^ 64 := by
  induction fuel generalizing size with
  | zero => simp [grow_loop]
  | succ f ih =>
    unfold grow_loop
    by_cases hc : new_size > (size + n) % 2 ^ 64
    · rw [if_pos hc, ih]
      constructor
      · intro h k hk
        cases k with
        | zero => simpa [Nat.add_mod] using hc
        | succ j =>
          have hj := h j (by omega)
          rwa [double_mod_pow] at hj
      · intro h k hk
        have hj := h (k + 1) (by omega)
        rwa [double_mod_pow]
    · rw [if_neg hc]
      constructor
      · intro h; cases h
      · intro h
        exact absurd (by simpa [Nat.add_mod] using h 0 (by omega)) hc

/-- Sixty-five tests decide the loop: if it has not exited by then, `va->size`
has been doubled to zero and no amount of further fuel lets it exit. -/
theorem grow_loop_hang (new_size size n : Nat)
    (h : grow_loop 65 new_size size n = none) (fuel : Nat) :
    grow_loop fuel new_size size n = none := by
  rw [grow_loop_none_iff] at h ⊢
  intro k _
  by_cases hk : k < 65
  · exact h k hk
  · have h64 := h 64 (by omega)
    have z : ∀ j, 64 ≤ j → size * 2 ^ j % 2 ^ 64 = 0 := by
      intro j hj
      obtain ⟨d, rfl⟩ := Nat.exists_eq_add_of_le hj
      rw [pow_add, ← Nat.mul_assoc, Nat.mul_comm size, Nat.mul_assoc]
      exact Nat.mul_mod_right _ _
    rw [z 64 (le_refl _)] at h64
    rw [z k (by omega)]
    exact h64

/-- Without wraparound in `va->size + n` the loop exits at its first test. -/
theorem grow_loop_nowrap (fuel size n : Nat) (h : size + n ≤ SIZE_MAX) :
    grow_loop (fuel + 1) size size n = some size := by
  have e : (size + n) % 2 ^ 64 = size + n := Nat.mod_eq_of_lt (by unfold SIZE_MAX at h; omega)
  unfold grow_loop
  rw [e, if_neg (by omega)]

/-! ## Library models -/

theorem calloc_eq_some (n stride : Nat) (block : List Slot) (h : calloc n stride = some block) :
    n * stride ≤ SIZE_MAX ∧ block = List.replicate n (zero_slot stride) := by
  unfold calloc at h
  split at h
  · exact ⟨by assumption, by injection h with h; exact h.symm⟩
  · cases h

theorem calloc_of_le (n stride : Nat) (h : n * stride ≤ SIZE_MAX) :
    calloc n stride = some (List.replicate n (zero_slot stride)) := by
  unfold calloc
  rw [if_pos h]

/-- A copy of `k` whole slots to the start of a block. -/
theorem memcpy_front (dst src : List Slot) (k stride : Nat) (hs : stride ≠ 0)
    (block : List Slot) (h : memcpy dst 0 src (k * stride) stride = .ok block) :
    k ≤ src.length ∧ k ≤ dst.length ∧ block = src.take k ++ dst.drop k := by
  have hpos : 0 < stride := Nat.pos_of_ne_zero hs
  unfold memcpy at h
  split at h
  · cases h
  · rename_i hb
    split at h
    · cases h
    · simp only [not_or, not_lt, Nat.zero_add] at hb
      have h1 : k ≤ dst.length := Nat.le_of_mul_le_mul_right hb.1 hpos
      have h2 : k ≤ src.length := Nat.le_of_mul_le_mul_right hb.2 hpos
      refine ⟨h2, h1, ?_⟩
      injection h with h
      rw [← h]
      simp [Nat.mul_div_cancel _ hpos]

/-- A copy of no bytes leaves the destination as it was. -/
theorem memcpy_zero (dst src : List Slot) (stride : Nat) :
    memcpy dst 0 src 0 stride = .ok dst := by
  simp [memcpy]

/-- A copy of `k` whole slots to slot `i` of a block that has room for them. -/
theorem memcpy_slots (dst src : List Slot) (i k stride : Nat) (hs : stride ≠ 0)
    (hd : i + k ≤ dst.length) (hk : k ≤ src.length) :
    memcpy dst (i * stride) src (k * stride) stride
      = .ok (dst.take i ++ src.take k ++ dst.drop (i + k)) := by
  have hpos : 0 < stride := Nat.pos_of_ne_zero hs
  have h1 : ¬ (i * stride + k * stride > dst.length * stride ∨
      k * stride > src.length * stride) := by
    rw [not_or, ← Nat.add_mul]
    exact ⟨Nat.not_lt.2 (Nat.mul_le_mul_right _ hd), Nat.not_lt.2 (Nat.mul_le_mul_right _ hk)⟩
  unfold memcpy
  rw [if_neg h1, if_neg (by simp), Nat.mul_div_cancel _ hpos, Nat.mul_div_cancel _ hpos]

/-- A copy of whole slots that returns stayed inside both blocks. -/
theorem memcpy_ok_bounds (dst src : List Slot) (i k stride : Nat) (hs : stride ≠ 0)
    (block : List Slot) (h : memcpy dst (i * stride) src (k * stride) stride = .ok block) :
    i + k ≤ dst.length ∧ k ≤ src.length := by
  have hpos : 0 < stride := Nat.pos_of_ne_zero hs
  unfold memcpy at h
  split at h
  · cases h
  · rename_i hb
    rw [not_or, ← Nat.add_mul] at hb
    exact ⟨Nat.le_of_mul_le_mul_right (Nat.not_lt.1 hb.1) hpos,
      Nat.le_of_mul_le_mul_right (Nat.not_lt.1 hb.2) hpos⟩

/-! ## The growth check -/

/-- The out-of-line growth function when `va->size + n` does not wrap: the loop
does nothing, and a block of `va->size` slots (1024 when that is zero) replaces
the old one. -/
theorem check_grow_inner_eq (va : vertex_array) (n : Nat) (hs : va.stride ≠ 0)
    (hg : ¬ va.size > SIZE_MAX / 2 / va.stride) (hw : va.size + n ≤ SIZE_MAX) :
    _vertex_array_check_grow va n =
      match calloc (if va.size = 0 then 1024 else va.size) va.stride with
      | none => .error (.abort, va)
      | some new_block =>
        match memcpy new_block 0 va.data (va.size * va.stride) va.stride with
        | .error f => .error (f, va)
        | .ok block =>
          .ok { va with size := (if va.size = 0 then 1024 else va.size), data := block } := by
  have hpos : 0 < va.stride := Nat.pos_of_ne_zero hs
  have hle : va.size * va.stride ≤ SIZE_MAX / 2 := by
    have := Nat.le_of_not_lt hg
    exact (Nat.le_div_iff_mul_le hpos).1 this
  have hm : va.size * va.stride % 2 ^ 64 = va.size * va.stride :=
    Nat.mod_eq_of_lt (by unfold SIZE_MAX at hle; omega)
  unfold _vertex_array_check_grow
  rw [if_neg hs, if_neg hg]
  simp only [grow_loop_nowrap 64 va.size n hw, hm]

/-- With `size + n` representable and room for `n` elements at the cursor, the
inline check returns at its room test. -/
theorem check_grow_of_room (va : vertex_array) (n : Nat) (hw : va.size + n ≤ SIZE_MAX)
    (hroom : va.index + n ≤ va.size) :
    vertex_array_check_grow va n = .ok va := by
  have e : (va.index + n) % 2 ^ 64 = va.index + n :=
    Nat.mod_eq_of_lt (by unfold SIZE_MAX at hw; omega)
  unfold vertex_array_check_grow
  rw [if_neg (by unfold SIZE_MAX at hw ⊢; omega), e, if_pos hroom]

/-- On its growth path the inline check is the out-of-line function. -/
theorem check_grow_growth_path (va : vertex_array) (n : Nat)
    (h1 : ¬ va.size > SIZE_MAX - n) (h2 : ¬ (va.index + n) % 2 ^ 64 ≤ va.size) :
    vertex_array_check_grow va n = _vertex_array_check_grow va n := by
  unfold vertex_array_check_grow
  rw [if_neg h1, if_neg h2]

/-- What a normal return of the growth check can be: the buffer as it was, or
the buffer with a new block of the same number of slots (1024 if there were
none) whose first `va.size` slots are the old ones. -/
theorem check_grow_ok_cases (va va1 : vertex_array) (n : Nat) (hn : n ≤ SIZE_MAX)
    (h : vertex_array_check_grow va n = .ok va1) :
    va1 = va ∨
      (va.size ≤ va.data.length ∧
        va1 = { va with
          size := (if va.size = 0 then 1024 else va.size)
          data := va.data.take va.size ++
            (List.replicate (if va.size = 0 then 1024 else va.size)
              (zero_slot va.stride)).drop va.size }) := by
  unfold vertex_array_check_grow at h
  split at h
  · cases h
  · rename_i h1
    split at h
    · left
      injection h with h
      exact h.symm
    · right
      have hw : va.size + n ≤ SIZE_MAX := by
        unfold SIZE_MAX at h1 hn ⊢
        omega
      by_cases hs : va.stride = 0
      · unfold _vertex_array_check_grow at h
        rw [if_pos hs] at h
        cases h
      by_cases hg : va.size > SIZE_MAX / 2 / va.stride
      · unfold _vertex_array_check_grow at h
        rw [if_neg hs, if_pos hg] at h
        cases h
      rw [check_grow_inner_eq va n hs hg hw] at h
      split at h
      · cases h
      · rename_i new_block hc
        obtain ⟨_, rfl⟩ := calloc_eq_some _ _ _ hc
        split at h
        · cases h
        · rename_i block hm
          obtain ⟨k1, _, rfl⟩ := memcpy_front _ _ _ _ hs _ hm
          injection h with h
          exact ⟨k1, h.symm⟩

/-- The growth check never changes the capacity of a buffer that has slots:
whatever `n` is, a normal return leaves `size` as it was. -/
theorem check_grow_size_unchanged (va va1 : vertex_array) (n : Nat) (hn : n ≤ SIZE_MAX)
    (h0 : va.size ≠ 0) (h : vertex_array_check_grow va n = .ok va1) :
    va1.size = va.size := by
  rcases check_grow_ok_cases va va1 n hn h with rfl | ⟨_, rfl⟩
  · rfl
  · show (if va.size = 0 then 1024 else va.size) = va.size
    rw [if_neg h0]

/-- After a normal return of the growth check on a well-formed buffer, the
block has exactly `size` slots. -/
theorem check_grow_length (va va1 : vertex_array) (n : Nat) (hn : n ≤ SIZE_MAX)
    (hlen : va.data.length = va.size) (h : vertex_array_check_grow va n = .ok va1) :
    va1.data.length = va1.size := by
  rcases check_grow_ok_cases va va1 n hn h with rfl | ⟨_, rfl⟩
  · exact hlen
  · show (va.data.take va.size ++ _).length = if va.size = 0 then 1024 else va.size
    simp only [List.length_append, List.length_take, List.length_drop, List.length_replicate,
      hlen]
    split <;> omega

/-! ## Appending where there is room -/

/-- With room at the cursor, the checked plain-vertex append stores the record
at the cursor and moves cursor and count to the next slot. -/
theorem vertex_xy_array_append_room (va : vertex_array) (x y : ℚ) (hv : valid va)
    (hs : va.stride = sizeof_vertex_xy) (hroom : va.index < va.size) :
    vertex_xy_array_append va x y
      = .ok { va with data := va.data.set va.index [x, y], index := va.index + 1,
                      count := va.index + 1 } := by
  obtain ⟨hlen, hrep, _, _⟩ := hv
  have h8 : va.stride = 8 := hs
  have hw : va.size + 1 ≤ SIZE_MAX := by
    rw [h8] at hrep
    unfold SIZE_MAX at hrep ⊢
    omega
  unfold vertex_xy_array_append CHECK
  rw [if_neg (by simp [hs]), check_grow_of_room va 1 hw (by omega)]
  show _vertex_xy_array_append va x y = _
  unfold _vertex_xy_array_append store_at_index
  rw [if_neg (by simp [hs]), if_pos (by omega)]
  simp [Except.map, advance]
  unfold SIZE_MAX at hw
  omega

/-- Appending `recs` where the buffer has room for all of them: every append
returns, cursor and count advance by the number of records, the records sit
in consecutive slots from the old cursor on in the order they were appended,
and the slots below the old cursor keep their contents. -/
theorem append_all_room (recs : List (ℚ × ℚ)) (va : vertex_array) (hv : valid va)
    (hs : va.stride = sizeof_vertex_xy) (hc : va.count = va.index)
    (hroom : va.index + recs.length ≤ va.size) :
    ∃ va1, append_all va recs = .ok va1 ∧ valid va1 ∧ va1.size = va.size ∧
      va1.stride = va.stride ∧ va1.index = va.index + recs.length ∧
      va1.count = va.index + recs.length ∧
      (∀ j, j < recs.length → va1.data[va.index + j]? = (recs.map xy_slot)[j]?) ∧
      (∀ i, i < va.index → va1.data[i]? = va.data[i]?) := by
  induction recs generalizing va with
  | nil =>
    exact ⟨va, rfl, hv, rfl, rfl, rfl, by simpa using hc, by simp, fun _ _ => rfl⟩
  | cons r rest ih =>
    obtain ⟨x, y⟩ := r
    simp only [List.length_cons] at hroom
    have hlt : va.index < va.size := by omega
    have hstep := vertex_xy_array_append_room va x y hv hs hlt
    obtain ⟨hlen, hrep, hi, hcnt⟩ := hv
    have hv1 : valid { va with data := va.data.set va.index [x, y], index := va.index + 1,
                               count := va.index + 1 } := by
      refine ⟨?_, hrep, ?_, ?_⟩
      · simpa using hlen
      · show va.index + 1 ≤ va.size
        omega
      · show va.index + 1 ≤ va.size
        omega
    obtain ⟨va1, hrun, hval, hsz, hst, hidx, hcount, hnew, hold⟩ :=
      ih _ hv1 hs rfl (by show va.index + 1 + rest.length ≤ va.size; omega)
    refine ⟨va1, ?_, hval, hsz, hst, ?_, ?_, ?_, ?_⟩
    · show (vertex_xy_array_append va x y >>= fun v => append_all v rest) = _
      rw [hstep]
      exact hrun
    · rw [hidx]
      show va.index + 1 + rest.length = va.index + (rest.length + 1)
      omega
    · rw [hcount]
      show va.index + 1 + rest.length = va.index + (rest.length + 1)
      omega
    · intro j hj
      cases j with
      | zero =>
        have h0 := hold va.index (by show va.index < va.index + 1; omega)
        rw [Nat.add_zero, h0]
        show (va.data.set va.index [x, y])[va.index]? = _
        rw [List.getElem?_set_self (by omega)]
        simp [xy_slot]
      | succ k =>
        have hk := hnew k (by simp only [List.length_cons] at hj; omega)
        have e : va.index + (k + 1) = va.index + 1 + k := by omega
        rw [e]
        simpa using hk
    · intro i hi2
      have h0 := hold i (by show i < va.index + 1; omega)
      rw [h0]
      show (va.data.set va.index [x, y])[i]? = _
      rw [List.getElem?_set_ne (by omega)]

/-- The ordering invariant within the initial capacity: `k ≤ c0` records
appended to a fresh plain-vertex buffer of capacity `c0` (with `c0 * 8`
representable) leave `count = k` and record `i` in slot `i`. -/
theorem alloc_then_append_within_capacity (c0 : Nat) (recs : List (ℚ × ℚ))
    (hrep : c0 * sizeof_vertex_xy ≤ SIZE_MAX) (hk : recs.length ≤ c0) :
    ∃ va1, alloc_then_append c0 recs = some (.ok va1) ∧ va1.count = recs.length ∧
      va1.index = recs.length ∧ va1.size = c0 ∧
      ∀ i, i < recs.length → va1.data[i]? = (recs.map xy_slot)[i]? := by
  have hval : valid ⟨c0, 0, 0, sizeof_vertex_xy, List.replicate c0 (zero_slot sizeof_vertex_xy)⟩ :=
    ⟨by simp, hrep, Nat.zero_le _, Nat.zero_le _⟩
  obtain ⟨va1, hrun, _, hsz, _, hidx, hcount, hnew, _⟩ :=
    append_all_room recs _ hval rfl rfl (by show 0 + recs.length ≤ c0; omega)
  refine ⟨va1, ?_, by simpa using hcount, by simpa using hidx, hsz, ?_⟩
  · unfold alloc_then_append vertex_array_alloc
    rw [calloc_of_le c0 _ hrep]
    exact congrArg some hrun
  · intro i hi
    simpa using hnew i hi

/-! ## Appending where there is no room -/

/-- A plain-vertex append to a full well-formed buffer that has slots never
returns: the growth check either stops the run or returns with the capacity
unchanged, and the store at the cursor then lies outside the block. -/
theorem vertex_xy_array_append_full (va : vertex_array) (x y : ℚ) (hv : valid va)
    (h0 : va.size ≠ 0) (hfull : va.index = va.size) (va1 : vertex_array) :
    vertex_xy_array_append va x y ≠ .ok va1 := by
  intro h
  unfold vertex_xy_array_append CHECK at h
  split at h
  · cases h
  · cases hg : vertex_array_check_grow va 1 with
    | error e =>
      rw [hg] at h
      cases h
    | ok va2 =>
      rw [hg] at h
      have hsz := check_grow_size_unchanged va va2 1 (by decide) h0 hg
      have hl := check_grow_length va va2 1 (by decide) hv.1 hg
      have hi : va2.index = va.index := by
        rcases check_grow_ok_cases va va2 1 (by decide) hg with rfl | ⟨_, rfl⟩ <;> rfl
      change _vertex_xy_array_append va2 x y = .ok va1 at h
      unfold _vertex_xy_array_append store_at_index at h
      split at h
      · cases h
      · rw [if_neg (by omega)] at h
        cases h

/-- Appending more records than a well-formed buffer with slots has room for
never returns normally. -/
theorem append_all_beyond_room (recs : List (ℚ × ℚ)) (va : vertex_array) (hv : valid va)
    (hs : va.stride = sizeof_vertex_xy) (h0 : va.size ≠ 0)
    (hmore : va.size < va.index + recs.length) (va1 : vertex_array) :
    append_all va recs ≠ .ok va1 := by
  induction recs generalizing va with
  | nil =>
    have := hv.2.2.1
    simp only [List.length_nil] at hmore
    omega
  | cons r rest ih =>
    obtain ⟨x, y⟩ := r
    intro h
    change (vertex_xy_array_append va x y >>= fun v => append_all v rest) = .ok va1 at h
    by_cases hlt : va.index < va.size
    · rw [vertex_xy_array_append_room va x y hv hs hlt] at h
      obtain ⟨hlen, hrep, _, _⟩ := hv
      change append_all { va with data := va.data.set va.index [x, y], index := va.index + 1,
                                  count := va.index + 1 } rest = .ok va1 at h
      refine ih { va with data := va.data.set va.index [x, y], index := va.index + 1,
                          count := va.index + 1 } ⟨by simpa using hlen, hrep, ?_, ?_⟩ hs h0 ?_ h
      · show va.index + 1 ≤ va.size
        omega
      · show va.index + 1 ≤ va.size
        omega
      · show va.size < va.index + 1 + rest.length
        simp only [List.length_cons] at hmore
        omega
    · have hfull : va.index = va.size := by
        have := hv.2.2.1
        omega
      cases hg : vertex_xy_array_append va x y with
      | error e =>
        rw [hg] at h
        cases h
      | ok va2 => exact vertex_xy_array_append_full va x y hv h0 hfull va2 hg

/-- The ordering invariant fails beyond the initial capacity, whatever the
capacity `c0 ≥ 1`: appending more than `c0` records to a fresh plain-vertex
buffer of capacity `c0` never returns normally. -/
theorem alloc_then_append_beyond_capacity (c0 : Nat) (recs : List (ℚ × ℚ)) (h0 : 1 ≤ c0)
    (hk : c0 < recs.length) (va1 : vertex_array) :
    alloc_then_append c0 recs ≠ some (.ok va1) := by
  intro h
  unfold alloc_then_append vertex_array_alloc at h
  cases hc : calloc c0 sizeof_vertex_xy with
  | none =>
    rw [hc] at h
    cases h
  | some block =>
    rw [hc] at h
    obtain ⟨hrep, rfl⟩ := calloc_eq_some _ _ _ hc
    have hval : valid ⟨c0, 0, 0, sizeof_vertex_xy,
        List.replicate c0 (zero_slot sizeof_vertex_xy)⟩ :=
      ⟨by simp, hrep, Nat.zero_le _, Nat.zero_le _⟩
    refine append_all_beyond_room recs _ hval rfl (by show c0 ≠ 0; omega)
      (by show c0 < 0 + recs.length; omega) va1 ?_
    simpa using h

/-! ## Concatenation -/

/-- With room in the destination for the `count` records of the source,
`vertex_array_concat` copies them to the slots from the destination cursor on,
advances the cursor by their number, raises the count to the new cursor if it
was below, and leaves the source as it was. -/
theorem vertex_array_concat_room (dest src : vertex_array) (hd : valid dest) (hsv : valid src)
    (hst : dest.stride = src.stride) (hs : dest.stride ≠ 0)
    (hw : dest.size + src.count ≤ SIZE_MAX) (hroom : dest.index + src.count ≤ dest.size) :
    vertex_array_concat dest src
      = .ok ({ dest with
                data := dest.data.take dest.index ++ src.data.take src.count
                          ++ dest.data.drop (dest.index + src.count)
                index := dest.index + src.count
                count := max dest.count (dest.index + src.count) }, src) := by
  obtain ⟨hlen, hrep, hi, _⟩ := hd
  obtain ⟨hlen2, hrep2, _, hc2⟩ := hsv
  have hpos : 0 < dest.stride := Nat.pos_of_ne_zero hs
  have m1 : dest.index * dest.stride % 2 ^ 64 = dest.index * dest.stride := by
    have : dest.index * dest.stride ≤ dest.size * dest.stride := Nat.mul_le_mul_right _ hi
    exact Nat.mod_eq_of_lt (by unfold SIZE_MAX at hrep; omega)
  have m2 : src.count * src.stride % 2 ^ 64 = src.count * dest.stride := by
    rw [← hst]
    rw [← hst] at hrep2
    have : src.count * dest.stride ≤ src.size * dest.stride := Nat.mul_le_mul_right _ hc2
    exact Nat.mod_eq_of_lt (by unfold SIZE_MAX at hrep2; omega)
  have m3 : (dest.index + src.count) % 2 ^ 64 = dest.index + src.count :=
    Nat.mod_eq_of_lt (by unfold SIZE_MAX at hw; omega)
  unfold vertex_array_concat
  rw [if_neg (by simp [hst]), check_grow_of_room dest src.count hw hroom]
  simp only [m1, m2, m3]
  rw [memcpy_slots dest.data src.data dest.index src.count dest.stride hs (by omega) (by omega)]
  by_cases hlt : dest.count < dest.index + src.count
  · simp [hlt, max_eq_right (Nat.le_of_lt hlt)]
  · simp [hlt, max_eq_left (Nat.le_of_not_lt hlt)]

/-- Record-level reading of `vertex_array_concat_room` for two buffers built by
appends alone (cursor equal to count): the destination count becomes the sum
of the two counts, its old records stay in place, record `j` of the source
lands in slot `count + j`, and the source is returned as it was. -/
theorem vertex_array_concat_records (A B : vertex_array) (hA : valid A) (hB : valid B)
    (hst : A.stride = B.stride) (hs : A.stride ≠ 0) (hcA : A.index = A.count)
    (hw : A.size + B.count ≤ SIZE_MAX) (hroom : A.index + B.count ≤ A.size) :
    ∃ A1, vertex_array_concat A B = .ok (A1, B) ∧ A1.count = A.count + B.count ∧
      (∀ i, i < A.count → A1.data[i]? = A.data[i]?) ∧
      (∀ j, j < B.count → A1.data[A.count + j]? = B.data[j]?) := by
  refine ⟨_, vertex_array_concat_room A B hA hB hst hs hw hroom, ?_, ?_, ?_⟩
  · show max A.count (A.index + B.count) = A.count + B.count
    rw [hcA]
    exact max_eq_right (Nat.le_add_right _ _)
  · intro i hi
    have hl : A.index ≤ A.data.length := by
      rw [hA.1]
      exact hA.2.2.1
    show (A.data.take A.index ++ B.data.take B.count ++ A.data.drop (A.index + B.count))[i]? = _
    rw [List.append_assoc, List.getElem?_append_left (by simp; omega),
      List.getElem?_take_of_lt (by omega)]
  · intro j hj
    have hl : A.index ≤ A.data.length := by
      rw [hA.1]
      exact hA.2.2.1
    have hlB : B.count ≤ B.data.length := by
      rw [hB.1]
      exact hB.2.2.2
    show (A.data.take A.index ++ B.data.take B.count ++ A.data.drop (A.index + B.count))[
      A.count + j]? = _
    rw [List.append_assoc, List.getElem?_append_right (by simp; omega)]
    simp only [List.length_take, Nat.min_eq_left hl, ← hcA, Nat.add_sub_cancel_left]
    rw [List.getElem?_append_left (by simp; omega), List.getElem?_take_of_lt hj]

/-! ## Well-formedness is kept by every operation that returns

In the embedding a store outside the block stops the run, so the states below
are those reached without any such store. -/

theorem vertex_array_alloc_valid (n stride : Nat) (va : vertex_array)
    (h : vertex_array_alloc n stride = some va) : valid va := by
  unfold vertex_array_alloc at h
  cases hc : calloc n stride with
  | none =>
    rw [hc] at h
    cases h
  | some block =>
    rw [hc] at h
    obtain ⟨hrep, rfl⟩ := calloc_eq_some _ _ _ hc
    injection h with h
    subst h
    exact ⟨by simp, hrep, Nat.zero_le _, Nat.zero_le _⟩

theorem vertex_array_check_grow_valid (va va1 : vertex_array) (n : Nat) (hn : n ≤ SIZE_MAX)
    (hv : valid va) (h : vertex_array_check_grow va n = .ok va1) : valid va1 := by
  have hl := check_grow_length va va1 n hn hv.1 h
  obtain ⟨hsz, hi, hc, hst⟩ : va.size ≤ va1.size ∧ va1.index = va.index ∧
      va1.count = va.count ∧ va1.stride = va.stride := by
    rcases check_grow_ok_cases va va1 n hn h with rfl | ⟨_, rfl⟩
    · exact ⟨le_refl _, rfl, rfl, rfl⟩
    · refine ⟨?_, rfl, rfl, rfl⟩
      show va.size ≤ if va.size = 0 then 1024 else va.size
      split <;> omega
  refine ⟨hl, ?_, by rw [hi]; exact le_trans hv.2.2.1 hsz, by rw [hc]; exact le_trans hv.2.2.2 hsz⟩
  by_cases h0 : va.size = 0
  · unfold vertex_array_check_grow at h
    split at h
    · cases h
    · split at h
      · injection h with h
        subst h
        exact hv.2.1
      · unfold _vertex_array_check_grow at h
        split at h
        · cases h
        · split at h
          · cases h
          · simp only at h
            split at h
            · cases h
            · split at h
              · cases h
              · rename_i new_block hc2
                have hcap := (calloc_eq_some _ _ _ hc2).1
                split at h
                · cases h
                · injection h with h
                  rw [← h]
                  exact hcap
  · rw [check_grow_size_unchanged va va1 n hn h0 h, hst]
    exact hv.2.1

theorem vertex_array_clear_valid (va : vertex_array) (hv : valid va) :
    valid (vertex_array_clear va) :=
  ⟨hv.1, hv.2.1, Nat.zero_le _, Nat.zero_le _⟩

theorem vertex_array_seek_set_valid (va va1 : vertex_array) (n : Nat) (hv : valid va)
    (h : vertex_array_seek_set va n = .ok va1) : valid va1 := by
  unfold vertex_array_seek_set at h
  split at h
  · cases h
  · rename_i hn
    have hlt : n < va.size := not_not.1 hn
    simp only at h
    split at h <;> (injection h with h; subst h)
    · exact ⟨hv.1, hv.2.1, Nat.le_of_lt hlt, Nat.le_of_lt hlt⟩
    · exact ⟨hv.1, hv.2.1, Nat.le_of_lt hlt, hv.2.2.2⟩

theorem vertex_xy_array_append_valid (va va1 : vertex_array) (x y : ℚ) (hv : valid va)
    (h : vertex_xy_array_append va x y = .ok va1) : valid va1 := by
  unfold vertex_xy_array_append CHECK at h
  split at h
  · cases h
  · cases hg : vertex_array_check_grow va 1 with
    | error e =>
      rw [hg] at h
      cases h
    | ok va2 =>
      rw [hg] at h
      obtain ⟨hlen, hrep, _, _⟩ := vertex_array_check_grow_valid va va2 1 (by decide) hv hg
      change _vertex_xy_array_append va2 x y = .ok va1 at h
      unfold _vertex_xy_array_append store_at_index at h
      split at h
      · cases h
      · split at h
        · rename_i hin
          have hmod : (va2.index + 1) % 2 ^ 64 ≤ va2.index + 1 := Nat.mod_le _ _
          simp only [Except.map, advance] at h
          injection h with h
          subst h
          refine ⟨by simpa using hlen, hrep, ?_, ?_⟩
          · show (va2.index + 1) % 2 ^ 64 ≤ va2.size
            omega
          · show (va2.index + 1) % 2 ^ 64 ≤ va2.size
            omega
        · cases h

/-! ## Concatenation where there is no room -/

/-- Without room in a destination that has slots, `vertex_array_concat` never
returns normally: the growth check leaves the capacity as it was and the bulk
copy then runs past the end of the block. -/
theorem vertex_array_concat_beyond_room (dest src : vertex_array) (hd : valid dest)
    (hsv : valid src) (hs : dest.stride ≠ 0) (h0 : dest.size ≠ 0)
    (hmore : dest.size < dest.index + src.count) (r : vertex_array × vertex_array) :
    vertex_array_concat dest src ≠ .ok r := by
  intro h
  have hpos : 0 < dest.stride := Nat.pos_of_ne_zero hs
  unfold vertex_array_concat at h
  split at h
  · cases h
  · rename_i hst
    have hst : dest.stride = src.stride := not_not.1 hst
    have hn : src.count ≤ SIZE_MAX := by
      have h1 : src.count * src.stride ≤ src.size * src.stride :=
        Nat.mul_le_mul_right _ hsv.2.2.2
      have h2 : src.count * 1 ≤ src.count * src.stride :=
        Nat.mul_le_mul_left _ (by rw [← hst]; exact hpos)
      have := hsv.2.1
      omega
    cases hg : vertex_array_check_grow dest src.count with
    | error e =>
      rw [hg] at h
      cases h
    | ok dest1 =>
      rw [hg] at h
      have hsz := check_grow_size_unchanged dest dest1 _ hn h0 hg
      obtain ⟨hl, hrep, hi1, _⟩ := vertex_array_check_grow_valid dest dest1 _ hn hd hg
      have hi : dest1.index = dest.index := by
        rcases check_grow_ok_cases dest dest1 _ hn hg with rfl | ⟨_, rfl⟩ <;> rfl
      have hstr : dest1.stride = dest.stride := by
        rcases check_grow_ok_cases dest dest1 _ hn hg with rfl | ⟨_, rfl⟩ <;> rfl
      have m1 : dest1.index * dest1.stride % 2 ^ 64 = dest1.index * dest1.stride := by
        have : dest1.index * dest1.stride ≤ dest1.size * dest1.stride :=
          Nat.mul_le_mul_right _ hi1
        exact Nat.mod_eq_of_lt (by unfold SIZE_MAX at hrep; omega)
      have m2 : src.count * src.stride % 2 ^ 64 = src.count * dest1.stride := by
        rw [hstr, hst]
        have h1 : src.count * src.stride ≤ src.size * src.stride :=
          Nat.mul_le_mul_right _ hsv.2.2.2
        have := hsv.2.1
        exact Nat.mod_eq_of_lt (by unfold SIZE_MAX at this; omega)
      simp only [m1, m2] at h
      split at h
      · cases h
      · rename_i block hm
        have hb := (memcpy_ok_bounds _ _ _ _ _ (by rw [hstr]; exact hs) _ hm).1
        omega

/-! ## Count after a typed append -/

/-- The unchecked appenders end with `va->count = va->index`: after the tail of
an appender the count is the cursor, whatever it was before. -/
theorem map_advance_count (r : Result) (va1 : vertex_array)
    (h : r.map advance = .ok va1) : va1.count = va1.index := by
  cases r with
  | error e => cases h
  | ok v =>
    simp only [Except.map] at h
    injection h with h
    subst h
    rfl

/-- Every plain-vertex append that returns leaves `count` equal to `index`. -/
theorem vertex_xy_array_append_count (va va1 : vertex_array) (x y : ℚ)
    (h : vertex_xy_array_append va x y = .ok va1) : va1.count = va1.index := by
  unfold vertex_xy_array_append at h
  cases hg : CHECK sizeof_vertex_xy va 1 with
  | error e =>
    rw [hg] at h
    cases h
  | ok va2 =>
    rw [hg] at h
    change _vertex_xy_array_append va2 x y = .ok va1 at h
    unfold _vertex_xy_array_append at h
    split at h
    · cases h
    · exact map_advance_count _ _ h

/-! ## Unchecked appends -/

/-- An unchecked plain-vertex append with the cursor inside the block. -/
theorem raw_append_room (va : vertex_array) (x y : ℚ) (hs : va.stride = sizeof_vertex_xy)
    (hroom : va.index < va.data.length) (hrep : va.data.length ≤ SIZE_MAX) :
    _vertex_xy_array_append va x y
      = .ok { va with data := va.data.set va.index [x, y], index := va.index + 1,
                      count := va.index + 1 } := by
  have hmod : (va.index + 1) % 2 ^ 64 = va.index + 1 :=
    Nat.mod_eq_of_lt (by unfold SIZE_MAX at hrep; omega)
  unfold _vertex_xy_array_append store_at_index
  rw [if_neg (by simp [hs]), if_pos hroom]
  simp only [Except.map, advance, hmod]

/-- Unchecked appends of `pts` with room for all of them in the block: the run
returns, the cursor advances by their number, the points sit in consecutive
slots from the old cursor on, and every other slot is as it was. -/
theorem raw_append_all_room (pts : List (ℚ × ℚ)) (va : vertex_array)
    (hs : va.stride = sizeof_vertex_xy) (hroom : va.index + pts.length ≤ va.data.length)
    (hrep : va.data.length ≤ SIZE_MAX) :
    ∃ va1, raw_append_all va pts = .ok va1 ∧ va1.size = va.size ∧ va1.stride = va.stride ∧
      va1.data.length = va.data.length ∧ va1.index = va.index + pts.length ∧
      (pts ≠ [] → va1.count = va.index + pts.length) ∧ (pts = [] → va1 = va) ∧
      (∀ j, j < pts.length → va1.data[va.index + j]? = (pts.map xy_slot)[j]?) ∧
      (∀ i, i < va.index ∨ va.index + pts.length ≤ i → va1.data[i]? = va.data[i]?) := by
  induction pts generalizing va with
  | nil =>
    exact ⟨va, rfl, rfl, rfl, rfl, rfl, fun h => absurd rfl h, fun _ => rfl, by simp,
      fun _ _ => rfl⟩
  | cons r rest ih =>
    obtain ⟨x, y⟩ := r
    simp only [List.length_cons] at hroom
    have hstep := raw_append_room va x y hs (by omega) hrep
    obtain ⟨va1, hrun, hsz, hst, hlen, hidx, hcount, _, hnew, hold⟩ :=
      ih { va with data := va.data.set va.index [x, y], index := va.index + 1,
                   count := va.index + 1 } hs
        (by show va.index + 1 + rest.length ≤ (va.data.set va.index [x, y]).length
            rw [List.length_set]; omega)
        (by show (va.data.set va.index [x, y]).length ≤ SIZE_MAX
            rw [List.length_set]; exact hrep)
    have hidx1 : va1.index = va.index + 1 + rest.length := hidx
    have hlen1 : va1.data.length = va.data.length := by
      rw [hlen]
      show (va.data.set va.index [x, y]).length = _
      rw [List.length_set]
    refine ⟨va1, ?_, hsz, hst, hlen1, ?_, ?_, fun h => (List.cons_ne_nil _ _ h).elim, ?_, ?_⟩
    · show (_vertex_xy_array_append va x y >>= fun v => raw_append_all v rest) = _
      rw [hstep]
      exact hrun
    · rw [hidx1, List.length_cons]
      omega
    · intro _
      by_cases hr : rest = []
      · subst hr
        have := ih { va with data := va.data.set va.index [x, y], index := va.index + 1,
                             count := va.index + 1 } hs
          (by show va.index + 1 + 0 ≤ (va.data.set va.index [x, y]).length
              rw [List.length_set]; omega)
          (by show (va.data.set va.index [x, y]).length ≤ SIZE_MAX
              rw [List.length_set]; exact hrep)
        obtain ⟨va2, hrun2, _, _, _, _, _, heq, _, _⟩ := this
        rw [hrun2] at hrun
        injection hrun with hrun
        rw [← hrun, heq rfl]
        rfl
      · rw [hcount hr, List.length_cons]
        show va.index + 1 + rest.length = _
        omega
    · intro j hj
      cases j with
      | zero =>
        have h0 := hold va.index (Or.inl (by show va.index < va.index + 1; omega))
        rw [Nat.add_zero, h0]
        show (va.data.set va.index [x, y])[va.index]? = _
        rw [List.getElem?_set_self (by omega)]
        simp [xy_slot]
      | succ k =>
        have hk := hnew k (by simp only [List.length_cons] at hj; omega)
        have e : va.index + (k + 1) = va.index + 1 + k := by omega
        rw [e]
        simpa using hk
    · intro i hi2
      have h0 := hold i (by
        show i < va.index + 1 ∨ va.index + 1 + rest.length ≤ i
        simp only [List.length_cons] at hi2
        omega)
      rw [h0]
      show (va.data.set va.index [x, y])[i]? = _
      simp only [List.length_cons] at hi2
      rw [List.getElem?_set_ne (by omega)]

/-- Unchecked appends of two lists in a row are the appends of their
concatenation. -/
theorem raw_append_all_append (a b : List (ℚ × ℚ)) (va : vertex_array) :
    raw_append_all va (a ++ b) = raw_append_all va a >>= fun v => raw_append_all v b := by
  induction a generalizing va with
  | nil => rfl
  | cons r rest ih =>
    show (_vertex_xy_array_append va r.1 r.2 >>= fun v => raw_append_all v (rest ++ b)) = _
    simp only [ih]
    show _ = ((_vertex_xy_array_append va r.1 r.2 >>= fun v => raw_append_all v rest) >>=
      fun v => raw_append_all v b)
    rw [bind_assoc]

/-- A loop whose step appends the vertices `e i` unchecked appends, over its
run, the vertices of `emit_range`. -/
theorem for_loop_emit (body : vertex_array → Nat → Result) (e : Nat → List (ℚ × ℚ))
    (hbody : ∀ va i, body va i = raw_append_all va (e i)) (i cnt : Nat) (va : vertex_array) :
    for_loop body i cnt va = raw_append_all va (emit_range e i cnt) := by
  induction cnt generalizing i va with
  | zero => rfl
  | succ c ih =>
    show (body va i >>= fun v => for_loop body (i + 1) c v) = _
    rw [show emit_range e i (c + 1) = e i ++ emit_range e (i + 1) c from rfl,
      raw_append_all_append, hbody]
    simp only [ih]

theorem bind_ok (r : Result) : (r >>= fun v => Except.ok v) = r := by
  cases r <;> rfl

/-- The step of a curve loop, as unchecked appends of `curve_emit`. -/
theorem curve_step_emit (p : Nat → ℚ × ℚ) (n_step : Nat) (va : vertex_array) (i : Nat) :
    (_vertex_xy_array_append va (p i).1 (p i).2 >>= fun va =>
        if i ≠ 0 ∧ i ≠ n_step then _vertex_xy_array_append va (p i).1 (p i).2 else .ok va)
      = raw_append_all va (curve_emit p n_step i) := by
  unfold curve_emit
  by_cases h : i ≠ 0 ∧ i ≠ n_step
  · simp only [if_pos h, raw_append_all, bind_ok]
  · simp only [if_neg h, raw_append_all, bind_ok]

/-! ## Line lists -/

theorem segments_length (p : Nat → ℚ × ℚ) (i cnt : Nat) :
    (segments p i cnt).length = 2 * cnt := by
  induction cnt generalizing i with
  | zero => rfl
  | succ c ih =>
    show (segments p (i + 1) c).length + 1 + 1 = 2 * (c + 1)
    rw [ih]
    omega

/-- Segment `k` of a line list is the pair of samples `k` and `k + 1`. -/
theorem segments_get (p : Nat → ℚ × ℚ) (i cnt k : Nat) (hk : k < cnt) :
    (segments p i cnt)[2 * k]? = some (p (i + k)) ∧
      (segments p i cnt)[2 * k + 1]? = some (p (i + k + 1)) := by
  induction cnt generalizing i k with
  | zero => omega
  | succ c ih =>
    cases k with
    | zero =>
      constructor
      · show (p i :: p (i + 1) :: segments p (i + 1) c)[0]? = _
        simp
      · show (p i :: p (i + 1) :: segments p (i + 1) c)[0 + 1]? = _
        simp
    | succ j =>
      obtain ⟨h1, h2⟩ := ih (i + 1) j (by omega)
      have e1 : 2 * (j + 1) = 2 * j + 1 + 1 := by omega
      have e2 : i + (j + 1) = i + 1 + j := by omega
      constructor
      · rw [e1, e2]
        show (p i :: p (i + 1) :: segments p (i + 1) c)[2 * j + 1 + 1]? = _
        rw [List.getElem?_cons_succ, List.getElem?_cons_succ]
        exact h1
      · rw [e1, e2]
        show (p i :: p (i + 1) :: segments p (i + 1) c)[2 * j + 1 + 1 + 1]? = _
        rw [List.getElem?_cons_succ, List.getElem?_cons_succ]
        exact h2

/-- From step `j + 1` on, a curve loop emits what remains of the line list
that starts with the sample `j`. -/
theorem curve_emit_tail (p : Nat → ℚ × ℚ) (n_step c j : Nat) (h : j + 1 + c = n_step) :
    p j :: emit_range (curve_emit p n_step) (j + 1) (c + 1) = segments p j (c + 1) := by
  induction c generalizing j with
  | zero =>
    have hn : j + 1 = n_step := by omega
    show p j :: (curve_emit p n_step (j + 1) ++ []) = [p j, p (j + 1)]
    unfold curve_emit
    rw [if_neg (by omega)]
    rfl
  | succ c ih =>
    have ih1 := ih (j + 1) (by omega)
    show p j :: (curve_emit p n_step (j + 1) ++
        emit_range (curve_emit p n_step) (j + 1 + 1) (c + 1))
      = p j :: p (j + 1) :: segments p (j + 1) (c + 1)
    rw [← ih1]
    unfold curve_emit
    rw [if_pos (by omega)]
    rfl

/-- For `n_step ≥ 1` the `n_step + 1` steps of a curve loop emit the line list
of `n_step` segments over the samples. -/
theorem curve_emit_segments (p : Nat → ℚ × ℚ) (n_step : Nat) (h : 1 ≤ n_step) :
    emit_range (curve_emit p n_step) 0 (n_step + 1) = segments p 0 n_step := by
  obtain ⟨c, rfl⟩ : ∃ c, n_step = c + 1 := ⟨n_step - 1, by omega⟩
  have ht := curve_emit_tail p (c + 1) c 0 (by omega)
  show curve_emit p (c + 1) 0 ++ emit_range (curve_emit p (c + 1)) (0 + 1) (c + 1) = _
  rw [← ht]
  unfold curve_emit
  rw [if_neg (by omega)]
  rfl

/-- For `n_step = 0` the single step of a curve loop emits its sample once. -/
theorem curve_emit_zero (p : Nat → ℚ × ℚ) :
    emit_range (curve_emit p 0) 0 1 = [p 0] := by
  show curve_emit p 0 0 ++ [] = _
  unfold curve_emit
  rw [if_neg (by omega)]
  rfl

/-! ## The shape generators -/

/-- In a well-formed plain-vertex buffer with room for `n` vertices at the
cursor, the macro `CHECK(n)` returns the buffer as it is. -/
theorem CHECK_room (va : vertex_array) (n : Nat) (hv : valid va)
    (hs : va.stride = sizeof_vertex_xy) (hroom : va.index + n ≤ va.size) :
    CHECK sizeof_vertex_xy va n = .ok va := by
  obtain ⟨_, hrep, _, _⟩ := hv
  have h8 : va.stride = 8 := hs
  have hw : va.size + n ≤ SIZE_MAX := by
    rw [h8] at hrep
    unfold SIZE_MAX at hrep ⊢
    omega
  unfold CHECK
  rw [if_neg (by simp [hs]), check_grow_of_room va n hw hroom]

/-- With room for all of them, checked appends do what unchecked appends do. -/
theorem append_all_eq_raw (pts : List (ℚ × ℚ)) (va : vertex_array) (hv : valid va)
    (hs : va.stride = sizeof_vertex_xy) (hroom : va.index + pts.length ≤ va.size) :
    append_all va pts = raw_append_all va pts := by
  induction pts generalizing va with
  | nil => rfl
  | cons r rest ih =>
    obtain ⟨x, y⟩ := r
    simp only [List.length_cons] at hroom
    have hstep := vertex_xy_array_append_room va x y hv hs (by omega)
    obtain ⟨hlen, hrep, _, _⟩ := hv
    have h8 : va.stride = 8 := hs
    have hraw := raw_append_room va x y hs (by omega) (by
      rw [hlen]
      have : va.size * 1 ≤ va.size * va.stride := Nat.mul_le_mul_left _ (by omega)
      omega)
    show (vertex_xy_array_append va x y >>= fun v => append_all v rest)
      = (_vertex_xy_array_append va x y >>= fun v => raw_append_all v rest)
    rw [hstep, hraw]
    exact ih _ ⟨by simpa using hlen, hrep, by show va.index + 1 ≤ va.size; omega,
      by show va.index + 1 ≤ va.size; omega⟩ hs
      (by show va.index + 1 + rest.length ≤ va.size; omega)

/-- The vertices a curve generator passes to the unchecked appender over its
whole loop, for the samples `p`. -/
theorem curve_loop_emit (p : Nat → ℚ × ℚ) (n_step cnt : Nat) (va : vertex_array) :
    for_loop (fun va i => _vertex_xy_array_append va (p i).1 (p i).2 >>= fun va =>
        if i ≠ 0 ∧ i ≠ n_step then _vertex_xy_array_append va (p i).1 (p i).2 else .ok va)
      0 cnt va = raw_append_all va (emit_range (curve_emit p n_step) 0 cnt) :=
  for_loop_emit _ _ (fun v i => curve_step_emit p n_step v i) 0 cnt va

/-- The number of vertices a curve loop emits: `2 * n_step`, or 1 when
`n_step = 0`. -/
theorem curve_emit_length (p : Nat → ℚ × ℚ) (n_step : Nat) :
    (emit_range (curve_emit p n_step) 0 (n_step + 1)).length
      = if n_step = 0 then 1 else 2 * n_step := by
  by_cases h : n_step = 0
  · subst h
    rw [curve_emit_zero]
    rfl
  · rw [if_neg h, curve_emit_segments p n_step (by omega), segments_length]

/-- The circle generator as a reservation followed by unchecked appends. -/
theorem circle_unfold (cosf sinf : ℚ → ℚ) (va : vertex_array) (cx cy r : ℚ) (n_step : Nat)
    (hrep : (n_step + 1) * 2 ≤ SIZE_MAX) :
    vertex_xy_array_circle cosf sinf va cx cy r n_step
      = CHECK sizeof_vertex_xy va ((n_step + 1) * 2) >>= fun v =>
          raw_append_all v
            (emit_range (curve_emit (circle_point cosf sinf cx cy r n_step) n_step) 0
              (n_step + 1)) := by
  have m1 : (n_step + 1) * 2 % 2 ^ 64 = (n_step + 1) * 2 :=
    Nat.mod_eq_of_lt (by unfold SIZE_MAX at hrep; omega)
  have m2 : (n_step + 1) % 2 ^ 64 = n_step + 1 :=
    Nat.mod_eq_of_lt (by unfold SIZE_MAX at hrep; omega)
  unfold vertex_xy_array_circle
  rw [m1, m2]
  congr 1
  funext v
  exact curve_loop_emit (circle_point cosf sinf cx cy r n_step) n_step (n_step + 1) v

/-- The arc generator as a reservation followed by unchecked appends. -/
theorem arc_unfold (cosf sinf : ℚ → ℚ) (va : vertex_array) (cx cy r theta0 theta1 : ℚ)
    (n_step : Nat) (hrep : (n_step + 1) * 2 ≤ SIZE_MAX) :
    vertex_xy_array_arc cosf sinf va cx cy r theta0 theta1 n_step
      = CHECK sizeof_vertex_xy va ((n_step + 1) * 2) >>= fun v =>
          raw_append_all v
            (emit_range (curve_emit (arc_point cosf sinf cx cy r theta0 theta1 n_step) n_step) 0
              (n_step + 1)) := by
  have m1 : (n_step + 1) * 2 % 2 ^ 64 = (n_step + 1) * 2 :=
    Nat.mod_eq_of_lt (by unfold SIZE_MAX at hrep; omega)
  have m2 : (n_step + 1) % 2 ^ 64 = n_step + 1 :=
    Nat.mod_eq_of_lt (by unfold SIZE_MAX at hrep; omega)
  unfold vertex_xy_array_arc
  rw [m1, m2]
  congr 1
  funext v
  exact curve_loop_emit (arc_point cosf sinf cx cy r theta0 theta1 n_step) n_step
    (n_step + 1) v

/-- A reservation with room followed by unchecked appends of at most the
reserved number of vertices: the run returns, and the vertices fill the slots
from the old cursor on. -/
theorem reserve_then_raw (va : vertex_array) (n : Nat) (pts : List (ℚ × ℚ)) (hv : valid va)
    (hs : va.stride = sizeof_vertex_xy) (hroom : va.index + n ≤ va.size)
    (hlen : pts.length ≤ n) :
    ∃ va1, (CHECK sizeof_vertex_xy va n >>= fun v => raw_append_all v pts) = .ok va1 ∧
      va1.size = va.size ∧ va1.stride = va.stride ∧ va1.data.length = va.data.length ∧
      va1.index = va.index + pts.length ∧
      (pts ≠ [] → va1.count = va.index + pts.length) ∧ (pts = [] → va1 = va) ∧
      (∀ j, j < pts.length → va1.data[va.index + j]? = (pts.map xy_slot)[j]?) ∧
      (∀ i, i < va.index ∨ va.index + pts.length ≤ i → va1.data[i]? = va.data[i]?) := by
  have hl := hv.1
  have h8 : va.stride = 8 := hs
  have hrep : va.data.length ≤ SIZE_MAX := by
    rw [hl]
    have := hv.2.1
    have : va.size * 1 ≤ va.size * va.stride := Nat.mul_le_mul_left _ (by omega)
    omega
  obtain ⟨va1, hrun, rest⟩ := raw_append_all_room pts va hs (by omega) hrep
  refine ⟨va1, ?_, rest⟩
  rw [CHECK_room va n hv hs hroom]
  exact hrun

theorem ok_bind (v : vertex_array) (f : vertex_array → Result) :
    (Except.ok v >>= f) = f v := rfl

/-- The aligned-box generator as a reservation of 8 followed by the checked
appends of its eight vertices. -/
theorem aligned_box_unfold (va : vertex_array) (cx cy w h : ℚ) :
    vertex_xy_array_aligned_box va cx cy w h
      = CHECK sizeof_vertex_xy va 8 >>= fun v => append_all v (aligned_box_points cx cy w h) := by
  unfold vertex_xy_array_aligned_box aligned_box_points
  simp only [_vertex_xy_array_line, append_all, bind_assoc, bind_ok]

/-- The rounded-rectangle generator as a reservation, the checked appends of
the eight edge vertices, and the unchecked appends of the corner vertices. -/
theorem roundrect_unfold (cosf sinf : ℚ → ℚ) (va : vertex_array)
    (cx cy w h theta corner_r : ℚ) (n_corner_step : Nat)
    (hrep : (n_corner_step + 1) * 2 * 4 + 8 ≤ SIZE_MAX) :
    vertex_xy_array_roundrect cosf sinf va cx cy w h theta corner_r n_corner_step
      = CHECK sizeof_vertex_xy va ((n_corner_step + 1) * 2 * 4 + 8) >>= fun v =>
          append_all v (roundrect_edge_points cosf sinf cx cy w h theta corner_r) >>= fun v =>
          raw_append_all v
            (roundrect_corner_emit cosf sinf cx cy w h theta corner_r n_corner_step) := by
  have m1 : ((n_corner_step + 1) * 2 * 4 + 8) % 2 ^ 64 = (n_corner_step + 1) * 2 * 4 + 8 :=
    Nat.mod_eq_of_lt (by unfold SIZE_MAX at hrep; omega)
  have m2 : (n_corner_step + 1) % 2 ^ 64 = n_corner_step + 1 :=
    Nat.mod_eq_of_lt (by unfold SIZE_MAX at hrep; omega)
  have hloop : ∀ v, for_loop (fun va corner =>
        for_loop (roundrect_step cosf sinf cx cy w h theta corner_r n_corner_step corner)
          0 (n_corner_step + 1) va) 0 4 v
      = raw_append_all v
          (roundrect_corner_emit cosf sinf cx cy w h theta corner_r n_corner_step) := by
    intro v
    exact for_loop_emit _ _ (fun v1 corner =>
      curve_loop_emit
        (roundrect_corner_point cosf sinf cx cy w h theta corner_r n_corner_step corner)
        n_corner_step (n_corner_step + 1) v1) 0 4 v
  unfold vertex_xy_array_roundrect roundrect_edge_points
  simp only [m1, m2, hloop, _vertex_xy_array_line, append_all, bind_assoc, ok_bind]

/-- The number of corner vertices of a rounded rectangle: `8 * n_corner_step`,
or 4 when `n_corner_step = 0`. -/
theorem roundrect_corner_emit_length (cosf sinf : ℚ → ℚ) (cx cy w h theta corner_r : ℚ)
    (n_corner_step : Nat) :
    (roundrect_corner_emit cosf sinf cx cy w h theta corner_r n_corner_step).length
      = if n_corner_step = 0 then 4 else 8 * n_corner_step := by
  have h4 : ∀ e : Nat → List (ℚ × ℚ),
      emit_range e 0 4 = e 0 ++ (e 1 ++ (e 2 ++ (e 3 ++ []))) := fun _ => rfl
  unfold roundrect_corner_emit
  rw [h4]
  simp only [List.length_append, curve_emit_length, List.length_nil]
  split <;> omega

/-- A curve generator on a well-formed plain-vertex buffer with room for its
reservation: the run returns, the cursor advances by the number of emitted
vertices, and these fill the slots from the old cursor on. -/
theorem curve_run (p : Nat → ℚ × ℚ) (n_step : Nat) (va : vertex_array) (hv : valid va)
    (hs : va.stride = sizeof_vertex_xy) (hroom : va.index + (n_step + 1) * 2 ≤ va.size) :
    ∃ va1, (CHECK sizeof_vertex_xy va ((n_step + 1) * 2) >>= fun v =>
        raw_append_all v (emit_range (curve_emit p n_step) 0 (n_step + 1))) = .ok va1 ∧
      va1.size = va.size ∧
      va1.index = va.index + (if n_step = 0 then 1 else 2 * n_step) ∧
      va1.count = va.index + (if n_step = 0 then 1 else 2 * n_step) ∧
      (∀ j, j < (emit_range (curve_emit p n_step) 0 (n_step + 1)).length →
        va1.data[va.index + j]?
          = ((emit_range (curve_emit p n_step) 0 (n_step + 1)).map xy_slot)[j]?) := by
  have hlen := curve_emit_length p n_step
  obtain ⟨va1, hrun, hsz, _, _, hidx, hcount, _, hnew, _⟩ :=
    reserve_then_raw va ((n_step + 1) * 2) (emit_range (curve_emit p n_step) 0 (n_step + 1))
      hv hs hroom (by rw [hlen]; split <;> omega)
  refine ⟨va1, hrun, hsz, by rw [hidx, hlen], ?_, hnew⟩
  rw [hcount (by
    intro h
    rw [h] at hlen
    simp only [List.length_nil] at hlen
    split at hlen <;> omega), hlen]

/-- The reservation of a curve generator is representable whenever a
well-formed plain-vertex buffer has room for it. -/
theorem room_representable (va : vertex_array) (n : Nat) (hv : valid va)
    (hs : va.stride = sizeof_vertex_xy) (hroom : va.index + n ≤ va.size) : n ≤ SIZE_MAX := by
  have h8 : va.stride = 8 := hs
  have := hv.2.1
  rw [h8] at this
  omega

/-- A curve generator with `n_step ≥ 1` and room for its reservation writes the
line list of its samples: segment `k` is in slots `2k` and `2k + 1` past the
old cursor and joins sample `k` to sample `k + 1`. -/
theorem curve_run_segments (p : Nat → ℚ × ℚ) (n_step : Nat) (hn : 1 ≤ n_step)
    (va : vertex_array) (hv : valid va) (hs : va.stride = sizeof_vertex_xy)
    (hroom : va.index + (n_step + 1) * 2 ≤ va.size) :
    ∃ va1, (CHECK sizeof_vertex_xy va ((n_step + 1) * 2) >>= fun v =>
        raw_append_all v (emit_range (curve_emit p n_step) 0 (n_step + 1))) = .ok va1 ∧
      va1.index = va.index + 2 * n_step ∧
      ∀ k, k < n_step →
        va1.data[va.index + 2 * k]? = some (xy_slot (p k)) ∧
        va1.data[va.index + 2 * k + 1]? = some (xy_slot (p (k + 1))) := by
  obtain ⟨va1, hrun, _, hidx, _, hnew⟩ := curve_run p n_step va hv hs hroom
  have hseg := curve_emit_segments p n_step hn
  rw [hseg, segments_length] at hnew
  rw [if_neg (by omega)] at hidx
  refine ⟨va1, hrun, hidx, ?_⟩
  intro k hk
  obtain ⟨g1, g2⟩ := segments_get p 0 n_step k hk
  have e1 := hnew (2 * k) (by omega)
  have e2 := hnew (2 * k + 1) (by omega)
  rw [List.getElem?_map, g1] at e1
  rw [List.getElem?_map, g2] at e2
  simp only [Nat.zero_add, Option.map_some'] at e1 e2
  exact ⟨e1, by rw [Nat.add_assoc]; exact e2⟩

/-! ## Projection -/

/-- The copy loop of `tex_extend_project` with `cnt` steps from step `i0` on,
when the source has the records to read and the destination the slots to
fill: the loop returns, only the slots `index + i0 .. index + i0 + cnt - 1` of
the destination change, and slot `index + i` holds the projection of source
record `i`. -/
theorem project_loop_room (src : vertex_array) (c0 c1 c2 c3 c4 c5 : ℚ) (cnt i0 : Nat)
    (dest : vertex_array) (hsrc : i0 + cnt ≤ src.data.length)
    (hdst : dest.index + i0 + cnt ≤ dest.data.length) :
    ∃ d1, for_loop (project_step src c0 c1 c2 c3 c4 c5) i0 cnt dest = .ok d1 ∧
      d1.size = dest.size ∧ d1.count = dest.count ∧ d1.index = dest.index ∧
      d1.stride = dest.stride ∧ d1.data.length = dest.data.length ∧
      (∀ i, i0 ≤ i → i < i0 + cnt →
        d1.data[dest.index + i]? = (src.data[i]?).map (project_record c0 c1 c2 c3 c4 c5)) ∧
      (∀ j, j < dest.index + i0 ∨ dest.index + i0 + cnt ≤ j → d1.data[j]? = dest.data[j]?) := by
  induction cnt generalizing i0 dest with
  | zero =>
    exact ⟨dest, rfl, rfl, rfl, rfl, rfl, rfl, fun i h1 h2 => by omega, fun _ _ => rfl⟩
  | succ c ih =>
    have hi0 : i0 < src.data.length := by omega
    obtain ⟨s0, hs0⟩ : ∃ s0, src.data[i0]? = some s0 :=
      ⟨src.data[i0], List.getElem?_eq_getElem hi0⟩
    obtain ⟨r0, hr0⟩ : ∃ r0, r0 = project_record c0 c1 c2 c3 c4 c5 s0 := ⟨_, rfl⟩
    have hstep : project_step src c0 c1 c2 c3 c4 c5 dest i0
        = .ok { dest with data := dest.data.set (dest.index + i0) r0 } := by
      unfold project_step
      rw [hs0, hr0]
      simp only
      rw [if_pos (by omega)]
    obtain ⟨d1, hrun, hsz, hcnt, hidx, hst, hlen, hnew, hold⟩ :=
      ih (i0 + 1) { dest with data := dest.data.set (dest.index + i0) r0 }
        (by omega)
        (by show dest.index + (i0 + 1) + c ≤ (dest.data.set _ _).length
            rw [List.length_set]; omega)
    refine ⟨d1, ?_, hsz, hcnt, hidx, hst, ?_, ?_, ?_⟩
    · show (project_step src c0 c1 c2 c3 c4 c5 dest i0 >>= fun v =>
        for_loop (project_step src c0 c1 c2 c3 c4 c5) (i0 + 1) c v) = _
      rw [hstep]
      exact hrun
    · rw [hlen]
      show (dest.data.set _ _).length = _
      rw [List.length_set]
    · intro i h1 h2
      by_cases hi : i = i0
      · subst hi
        have := hold (dest.index + i) (Or.inl (by show dest.index + i < dest.index + (i + 1); omega))
        rw [this]
        show (dest.data.set (dest.index + i) _)[dest.index + i]? = _
        rw [List.getElem?_set_self (by omega), hs0, hr0]
        rfl
      · exact hnew i (by omega) (by omega)
    · intro j hj
      have := hold j (by
        show j < dest.index + (i0 + 1) ∨ dest.index + (i0 + 1) + c ≤ j
        omega)
      rw [this]
      show (dest.data.set (dest.index + i0) _)[j]? = _
      rw [List.getElem?_set_ne (by omega)]

/-! ## Runs on buffers that agree below the cursor -/

theorem same_outcome_bind (R R1 : vertex_array → vertex_array → Prop) (r1 r2 : Result)
    (f : vertex_array → Result) (h : same_outcome R r1 r2)
    (hf : ∀ v1 v2, R v1 v2 → same_outcome R1 (f v1) (f v2)) :
    same_outcome R1 (r1 >>= f) (r2 >>= f) := by
  cases r1 with
  | error e1 =>
    cases r2 with
    | error e2 => exact h
    | ok v2 => exact h.elim
  | ok v1 =>
    cases r2 with
    | error e2 => exact h.elim
    | ok v2 => exact hf v1 v2 h

theorem same_outcome_mono (R R1 : vertex_array → vertex_array → Prop) (r1 r2 : Result)
    (h : same_outcome R r1 r2) (hR : ∀ v1 v2, R v1 v2 → R1 v1 v2) :
    same_outcome R1 r1 r2 := by
  cases r1 with
  | error e1 =>
    cases r2 with
    | error e2 => exact h
    | ok v2 => exact h.elim
  | ok v1 =>
    cases r2 with
    | error e2 => exact h.elim
    | ok v2 => exact hR v1 v2 h

/-- Prefixes of two blocks of equal length, followed by the same tail, agree
wherever the blocks agree. -/
theorem take_append_agree (d1 d2 rest : List Slot) (k i : Nat)
    (hlen : d1.length = d2.length) (hi : d1[i]? = d2[i]?) :
    (d1.take k ++ rest)[i]? = (d2.take k ++ rest)[i]? := by
  have hl : (d1.take k).length = (d2.take k).length := by
    rw [List.length_take, List.length_take, hlen]
  by_cases h : i < (d1.take k).length
  · have hk : i < k := by
      rw [List.length_take] at h
      omega
    rw [List.getElem?_append_left h, List.getElem?_append_left (by rw [← hl]; exact h),
      List.getElem?_take_of_lt hk, List.getElem?_take_of_lt hk, hi]
  · rw [List.getElem?_append_right (by omega),
      List.getElem?_append_right (by rw [← hl]; omega), hl]

/-- The two block copies of the growth check, on sources of equal length. -/
theorem memcpy_agree (nb d1 d2 : List Slot) (bytes stride : Nat)
    (hlen : d1.length = d2.length) :
    match memcpy nb 0 d1 bytes stride, memcpy nb 0 d2 bytes stride with
    | .ok b1, .ok b2 => b1.length = b2.length ∧
        ∀ i : Nat, d1[i]? = d2[i]? → b1[i]? = b2[i]?
    | .error f1, .error f2 => f1 = f2
    | _, _ => False := by
  unfold memcpy
  rw [hlen]
  simp only [Nat.zero_add, Nat.zero_mod, Nat.zero_div, List.take_zero, List.nil_append, ne_eq,
    not_true_eq_false, false_or]
  by_cases h1 : bytes > nb.length * stride ∨ bytes > d2.length * stride
  · simp only [if_pos h1]
  · by_cases h2 : ¬ bytes % stride = 0
    · simp only [if_neg h1, if_pos h2]
    · simp only [if_neg h1, if_neg h2]
      refine ⟨?_, fun i hi => take_append_agree d1 d2 _ _ i hlen hi⟩
      rw [List.length_append, List.length_append, List.length_take, List.length_take, hlen]

/-- The growth check treats buffers that agree below the cursor alike. -/
theorem check_grow_agree (v1 v2 : vertex_array) (n : Nat) (h : agree_below_cursor v1 v2) :
    same_outcome agree_below_cursor (vertex_array_check_grow v1 n)
      (vertex_array_check_grow v2 n) := by
  obtain ⟨s1, c1, i1, st1, d1⟩ := v1
  obtain ⟨s2, c2, i2, st2, d2⟩ := v2
  obtain ⟨hs, hc, hi, hst, hlen, hci, hag⟩ := h
  simp only at hs hc hi hst hlen hci hag
  subst hs hc hi hst
  unfold vertex_array_check_grow
  simp only
  by_cases g1 : s1 > SIZE_MAX - n
  · rw [if_pos g1, if_pos g1]
    exact rfl
  rw [if_neg g1, if_neg g1]
  by_cases g2 : (i1 + n) % 2 ^ 64 ≤ s1
  · rw [if_pos g2, if_pos g2]
    exact ⟨rfl, rfl, rfl, rfl, hlen, hci, hag⟩
  rw [if_neg g2, if_neg g2]
  unfold _vertex_array_check_grow
  simp only
  by_cases g3 : st1 = 0
  · rw [if_pos g3, if_pos g3]
    exact rfl
  rw [if_neg g3, if_neg g3]
  by_cases g4 : s1 > SIZE_MAX / 2 / st1
  · rw [if_pos g4, if_pos g4]
    exact rfl
  rw [if_neg g4, if_neg g4]
  cases grow_loop 65 s1 s1 n with
  | none => exact rfl
  | some size1 =>
    simp only
    cases calloc (if s1 = 0 then 1024 else s1) st1 with
    | none => exact rfl
    | some nb =>
      simp only
      have hm := memcpy_agree nb d1 d2 (size1 * st1 % 2 ^ 64) st1 hlen
      cases hm1 : memcpy nb 0 d1 (size1 * st1 % 2 ^ 64) st1 with
      | error f1 =>
        cases hm2 : memcpy nb 0 d2 (size1 * st1 % 2 ^ 64) st1 with
        | error f2 =>
          rw [hm1, hm2] at hm
          exact hm
        | ok b2 =>
          rw [hm1, hm2] at hm
          exact hm.elim
      | ok b1 =>
        cases hm2 : memcpy nb 0 d2 (size1 * st1 % 2 ^ 64) st1 with
        | error f2 =>
          rw [hm1, hm2] at hm
          exact hm.elim
        | ok b2 =>
          rw [hm1, hm2] at hm
          exact ⟨rfl, rfl, rfl, rfl, hm.1, hci, fun i hi => hm.2 i (hag i hi)⟩

/-- The plain-vertex append treats buffers that agree below the cursor alike,
and the appended record is below the new cursor in both. -/
theorem vertex_xy_array_append_agree (v1 v2 : vertex_array) (x y : ℚ)
    (h : agree_below_cursor v1 v2) :
    same_outcome agree_below_cursor (vertex_xy_array_append v1 x y)
      (vertex_xy_array_append v2 x y) := by
  unfold vertex_xy_array_append
  refine same_outcome_bind agree_below_cursor _ _ _ _ ?_ ?_
  · unfold CHECK
    rw [← h.2.2.2.1]
    by_cases g : v1.stride ≠ sizeof_vertex_xy
    · rw [if_pos g, if_pos g]
      exact rfl
    · rw [if_neg g, if_neg g]
      exact check_grow_agree v1 v2 1 h
  · intro w1 w2 hw
    obtain ⟨hs, hc, hi, hst, hlen, hci, hag⟩ := hw
    unfold _vertex_xy_array_append store_at_index
    rw [← hst, ← hi, ← hlen]
    by_cases g : w1.stride ≠ sizeof_vertex_xy
    · rw [if_pos g, if_pos g]
      exact rfl
    · rw [if_neg g, if_neg g]
      by_cases g2 : w1.index < w1.data.length
      · rw [if_pos g2, if_pos g2]
        simp only [Except.map, advance]
        have hle : (w1.index + 1) % 2 ^ 64 ≤ w1.index + 1 := Nat.mod_le _ _
        refine ⟨hs, rfl, rfl, rfl, ?_, le_refl _, ?_⟩
        · show (w1.data.set _ _).length = (w2.data.set _ _).length
          rw [List.length_set, List.length_set, hlen]
        · intro i hi2
          show (w1.data.set w1.index [x, y])[i]? = (w2.data.set w1.index [x, y])[i]?
          have hi3 : i < (w1.index + 1) % 2 ^ 64 := hi2
          by_cases e : i = w1.index
          · subst e
            rw [List.getElem?_set_self g2, List.getElem?_set_self (by rw [← hlen]; exact g2)]
          · rw [List.getElem?_set_ne (fun h' => e h'.symm),
              List.getElem?_set_ne (fun h' => e h'.symm)]
            exact hag i (by omega)
      · rw [if_neg g2, if_neg g2]
        exact rfl

/-- A sequence of plain-vertex appends treats buffers that agree below the
cursor alike. -/
theorem append_all_agree (recs : List (ℚ × ℚ)) (v1 v2 : vertex_array)
    (h : agree_below_cursor v1 v2) :
    same_outcome agree_below_cursor (append_all v1 recs) (append_all v2 recs) := by
  induction recs generalizing v1 v2 with
  | nil => exact h
  | cons r rest ih =>
    obtain ⟨x, y⟩ := r
    exact same_outcome_bind agree_below_cursor _ _ _ _
      (vertex_xy_array_append_agree v1 v2 x y h) (fun w1 w2 hw => ih w1 w2 hw)

/-! ## The divisor of the growth check -/

theorem keeps_divisor_ok (s : Nat) (v : vertex_array) (h : v.stride = s) :
    keeps_divisor s (.ok v) := by
  constructor
  · intro _ h1
    cases h1
  · intro w hw
    injection hw with hw
    rw [← hw]
    exact h

theorem keeps_divisor_error (s : Nat) (f : Fault) (st : vertex_array)
    (h : f ≠ .div_by_zero) : keeps_divisor s (.error (f, st)) := by
  constructor
  · intro _ h1
    injection h1 with h1
    injection h1 with h1 _
    exact h h1
  · intro _ hw
    cases hw

theorem keeps_divisor_bind (s : Nat) (r : Result) (f : vertex_array → Result)
    (hr : keeps_divisor s r) (hf : ∀ v, v.stride = s → keeps_divisor s (f v)) :
    keeps_divisor s (r >>= f) := by
  cases r with
  | error e =>
    obtain ⟨f1, st⟩ := e
    refine ⟨fun st1 h1 => hr.1 st1 h1, ?_⟩
    intro _ hw
    cases hw
  | ok v => exact hf v (hr.2 v rfl)

theorem memcpy_fault (dst src : List Slot) (off bytes stride : Nat) (f : Fault)
    (h : memcpy dst off src bytes stride = .error f) : f ≠ .div_by_zero := by
  unfold memcpy at h
  split at h
  · injection h with h
    rw [← h]
    decide
  · split at h
    · injection h with h
      rw [← h]
      decide
    · cases h

/-- The growth check of a buffer with a non-zero stride never divides by
zero, and it leaves the stride as it is. -/
theorem keeps_divisor_check_grow (va : vertex_array) (n : Nat) (h0 : va.stride ≠ 0) :
    keeps_divisor va.stride (vertex_array_check_grow va n) := by
  unfold vertex_array_check_grow
  split
  · exact keeps_divisor_error _ _ _ (by decide)
  · split
    · exact keeps_divisor_ok _ _ rfl
    · unfold _vertex_array_check_grow
      rw [if_neg h0]
      split
      · exact keeps_divisor_error _ _ _ (by decide)
      · simp only
        split
        · exact keeps_divisor_error _ _ _ (by decide)
        · split
          · exact keeps_divisor_error _ _ _ (by decide)
          · split
            · rename_i f hm
              exact keeps_divisor_error _ _ _ (memcpy_fault _ _ _ _ _ f hm)
            · exact keeps_divisor_ok _ _ rfl

theorem keeps_divisor_CHECK (sz : Nat) (va : vertex_array) (n : Nat) (h0 : va.stride ≠ 0) :
    keeps_divisor va.stride (CHECK sz va n) := by
  unfold CHECK
  split
  · exact keeps_divisor_error _ _ _ (by decide)
  · exact keeps_divisor_check_grow va n h0

/-- The stores and the tail of an unchecked appender. -/
theorem keeps_divisor_store (va : vertex_array) (r : Slot) :
    keeps_divisor va.stride ((store_at_index va r).map advance) := by
  unfold store_at_index
  split
  · exact keeps_divisor_ok _ _ rfl
  · exact keeps_divisor_error _ _ _ (by decide)

theorem keeps_divisor_raw_xy (va : vertex_array) (x y : ℚ) :
    keeps_divisor va.stride (_vertex_xy_array_append va x y) := by
  unfold _vertex_xy_array_append
  split
  · exact keeps_divisor_error _ _ _ (by decide)
  · exact keeps_divisor_store va _

theorem keeps_divisor_xy_append (va : vertex_array) (x y : ℚ) (h0 : va.stride ≠ 0) :
    keeps_divisor va.stride (vertex_xy_array_append va x y) := by
  unfold vertex_xy_array_append
  refine keeps_divisor_bind _ _ _ (keeps_divisor_CHECK _ va 1 h0) ?_
  intro v hv
  rw [← hv]
  exact keeps_divisor_raw_xy v x y

theorem keeps_divisor_tex_append (va : vertex_array) (x y tx ty : ℚ) (h0 : va.stride ≠ 0) :
    keeps_divisor va.stride (tex_array_append va x y tx ty) := by
  unfold tex_array_append
  refine keeps_divisor_bind _ _ _ (keeps_divisor_CHECK _ va 1 h0) ?_
  intro v hv
  rw [← hv]
  unfold _tex_array_append
  split
  · exact keeps_divisor_error _ _ _ (by decide)
  · exact keeps_divisor_store v _

theorem keeps_divisor_trace_append (va : vertex_array) (ax ay bx «by» t : ℚ)
    (h0 : va.stride ≠ 0) :
    keeps_divisor va.stride (trace_array_append va ax ay bx «by» t) := by
  unfold trace_array_append
  refine keeps_divisor_bind _ _ _ (keeps_divisor_CHECK _ va 1 h0) ?_
  intro v hv
  rw [← hv]
  unfold _trace_array_append
  split
  · exact keeps_divisor_error _ _ _ (by decide)
  · exact keeps_divisor_store v _

theorem keeps_divisor_via_append (va : vertex_array) (x y r r_inside : ℚ)
    (h0 : va.stride ≠ 0) :
    keeps_divisor va.stride (via_array_append va x y r r_inside) := by
  unfold via_array_append
  refine keeps_divisor_bind _ _ _ (keeps_divisor_CHECK _ va 1 h0) ?_
  intro v hv
  rw [← hv]
  unfold _via_array_append
  split
  · exact keeps_divisor_error _ _ _ (by decide)
  · exact keeps_divisor_store v _

theorem keeps_divisor_for_loop (s : Nat) (body : vertex_array → Nat → Result)
    (hbody : ∀ v i, v.stride = s → keeps_divisor s (body v i)) (i cnt : Nat)
    (va : vertex_array) (h : va.stride = s) : keeps_divisor s (for_loop body i cnt va) := by
  induction cnt generalizing i va with
  | zero => exact keeps_divisor_ok _ _ h
  | succ c ih =>
    exact keeps_divisor_bind _ _ _ (hbody va i h) (fun v hv => ih (i + 1) v hv)

theorem keeps_divisor_line_inner (va : vertex_array) (x0 y0 x1 y1 : ℚ) (h0 : va.stride ≠ 0) :
    keeps_divisor va.stride (_vertex_xy_array_line va x0 y0 x1 y1) := by
  unfold _vertex_xy_array_line
  refine keeps_divisor_bind _ _ _ (keeps_divisor_xy_append va x0 y0 h0) ?_
  intro v hv
  rw [← hv]
  exact keeps_divisor_xy_append v x1 y1 (by rw [hv]; exact h0)

/-- A step of a curve loop: one or two unchecked appends. -/
theorem keeps_divisor_curve_step (va : vertex_array) (x y : ℚ) (c : Prop) [Decidable c] :
    keeps_divisor va.stride (_vertex_xy_array_append va x y >>= fun v =>
      if c then _vertex_xy_array_append v x y else .ok v) := by
  refine keeps_divisor_bind _ _ _ (keeps_divisor_raw_xy va x y) ?_
  intro v hv
  split
  · rw [← hv]
    exact keeps_divisor_raw_xy v x y
  · exact keeps_divisor_ok _ _ hv

/-- Four line calls in a row, as the box generators make them. -/
theorem keeps_divisor_four_lines (va : vertex_array) (a : Fin 4 → ℚ × ℚ × ℚ × ℚ)
    (h0 : va.stride ≠ 0) :
    keeps_divisor va.stride
      (_vertex_xy_array_line va (a 0).1 (a 0).2.1 (a 0).2.2.1 (a 0).2.2.2 >>= fun va =>
       _vertex_xy_array_line va (a 1).1 (a 1).2.1 (a 1).2.2.1 (a 1).2.2.2 >>= fun va =>
       _vertex_xy_array_line va (a 2).1 (a 2).2.1 (a 2).2.2.1 (a 2).2.2.2 >>= fun va =>
       _vertex_xy_array_line va (a 3).1 (a 3).2.1 (a 3).2.2.1 (a 3).2.2.2) := by
  refine keeps_divisor_bind _ _ _ (keeps_divisor_line_inner va _ _ _ _ h0) ?_
  intro v1 hv1
  rw [← hv1]
  refine keeps_divisor_bind _ _ _
    (keeps_divisor_line_inner v1 _ _ _ _ (by rw [hv1]; exact h0)) ?_
  intro v2 hv2
  rw [← hv2]
  refine keeps_divisor_bind _ _ _
    (keeps_divisor_line_inner v2 _ _ _ _ (by rw [hv2, hv1]; exact h0)) ?_
  intro v3 hv3
  rw [← hv3]
  exact keeps_divisor_line_inner v3 _ _ _ _ (by rw [hv3, hv2, hv1]; exact h0)

theorem keeps_divisor_seek_set (va : vertex_array) (n : Nat) :
    keeps_divisor va.stride (vertex_array_seek_set va n) := by
  unfold vertex_array_seek_set
  split
  · exact keeps_divisor_error _ _ _ (by decide)
  · simp only
    split
    · exact keeps_divisor_ok _ _ rfl
    · exact keeps_divisor_ok _ _ rfl

theorem keeps_divisor_concat (va src : vertex_array) (h0 : va.stride ≠ 0) :
    keeps_divisor va.stride ((vertex_array_concat va src).map Prod.fst) := by
  unfold vertex_array_concat
  split
  · exact keeps_divisor_error _ _ _ (by decide)
  · have hg := keeps_divisor_check_grow va src.count h0
    cases hcg : vertex_array_check_grow va src.count with
    | error e =>
      rw [hcg] at hg
      exact ⟨fun st h1 => hg.1 st (by
        simp only [Except.map] at h1
        exact h1), fun _ hw => by cases hw⟩
    | ok dest1 =>
      rw [hcg] at hg
      have hst := hg.2 dest1 rfl
      simp only
      split
      · rename_i f hm
        exact keeps_divisor_error _ _ _ (memcpy_fault _ _ _ _ _ f hm)
      · split
        · exact keeps_divisor_ok _ _ hst
        · exact keeps_divisor_ok _ _ hst

theorem keeps_divisor_project_step (src : vertex_array) (c0 c1 c2 c3 c4 c5 : ℚ)
    (dest : vertex_array) (i : Nat) :
    keeps_divisor dest.stride (project_step src c0 c1 c2 c3 c4 c5 dest i) := by
  unfold project_step
  split
  · exact keeps_divisor_error _ _ _ (by decide)
  · split
    · exact keeps_divisor_ok _ _ rfl
    · exact keeps_divisor_error _ _ _ (by decide)

theorem keeps_divisor_extend_project (va src : vertex_array) (c0 c1 c2 c3 c4 c5 : ℚ)
    (h0 : va.stride ≠ 0) :
    keeps_divisor va.stride ((tex_extend_project va src c0 c1 c2 c3 c4 c5).map Prod.fst) := by
  unfold tex_extend_project
  split
  · exact keeps_divisor_error _ _ _ (by decide)
  · split
    · exact keeps_divisor_error _ _ _ (by decide)
    · have hg := keeps_divisor_check_grow va src.count h0
      cases hcg : vertex_array_check_grow va src.count with
      | error e =>
        rw [hcg] at hg
        exact ⟨fun st h1 => hg.1 st (by
          simp only [Except.map] at h1
          exact h1), fun _ hw => by cases hw⟩
      | ok dest1 =>
        rw [hcg] at hg
        have hst := hg.2 dest1 rfl
        simp only
        split
        · exact keeps_divisor_error _ _ _ (by decide)
        · have hl := keeps_divisor_for_loop va.stride (project_step src c0 c1 c2 c3 c4 c5)
            (fun v i hv => by
              rw [← hv]
              exact keeps_divisor_project_step src c0 c1 c2 c3 c4 c5 v i)
            0 src.count dest1 hst
          cases hfl : for_loop (project_step src c0 c1 c2 c3 c4 c5) 0 src.count dest1 with
          | error e =>
            rw [hfl] at hl
            exact ⟨fun st h1 => hl.1 st (by
              simp only [Except.map] at h1
              exact h1), fun _ hw => by cases hw⟩
          | ok dest2 =>
            rw [hfl] at hl
            have hst2 := hl.2 dest2 rfl
            simp only
            split
            · exact keeps_divisor_ok _ _ hst2
            · exact keeps_divisor_ok _ _ hst2

/-- A reservation followed by a loop of curve steps. -/
theorem keeps_divisor_curve (va : vertex_array) (n cnt n_step : Nat) (p : Nat → ℚ × ℚ)
    (h0 : va.stride ≠ 0) :
    keeps_divisor va.stride (CHECK sizeof_vertex_xy va n >>= fun va =>
      for_loop (fun va i => _vertex_xy_array_append va (p i).1 (p i).2 >>= fun va =>
          if i ≠ 0 ∧ i ≠ n_step then _vertex_xy_array_append va (p i).1 (p i).2 else .ok va)
        0 cnt va) := by
  refine keeps_divisor_bind _ _ _ (keeps_divisor_CHECK _ va n h0) ?_
  intro v hv
  refine keeps_divisor_for_loop _ _ ?_ 0 cnt v hv
  intro w i hw
  rw [← hw]
  exact keeps_divisor_curve_step w _ _ _

/-- Every exported operation on a buffer with a non-zero stride runs without
a division by zero and leaves the stride as it is. -/
theorem keeps_divisor_apply_op (cosf sinf : ℚ → ℚ) (va : vertex_array) (op : Op)
    (h0 : va.stride ≠ 0) : keeps_divisor va.stride (apply_op cosf sinf va op) := by
  cases op with
  | check_grow n => exact keeps_divisor_check_grow va n h0
  | clear => exact keeps_divisor_ok _ _ rfl
  | seek_set n => exact keeps_divisor_seek_set va n
  | concat src => exact keeps_divisor_concat va src h0
  | xy_append x y => exact keeps_divisor_xy_append va x y h0
  | bench count =>
    refine keeps_divisor_for_loop _ _ ?_ 0 count va rfl
    intro v i hv
    rw [← hv]
    exact keeps_divisor_xy_append v _ _ (by rw [hv]; exact h0)
  | line x0 y0 x1 y1 =>
    refine keeps_divisor_bind _ _ _ (keeps_divisor_CHECK _ va 2 h0) ?_
    intro v hv
    rw [← hv]
    exact keeps_divisor_line_inner v _ _ _ _ (by rw [hv]; exact h0)
  | aligned_box cx cy w h =>
    refine keeps_divisor_bind _ _ _ (keeps_divisor_CHECK _ va 8 h0) ?_
    intro v hv
    rw [← hv]
    exact keeps_divisor_four_lines v
      ![(cx - w / 2, cy - h / 2, cx + w / 2, cy - h / 2),
        (cx + w / 2, cy - h / 2, cx + w / 2, cy + h / 2),
        (cx + w / 2, cy + h / 2, cx - w / 2, cy + h / 2),
        (cx - w / 2, cy + h / 2, cx - w / 2, cy - h / 2)] (by rw [hv]; exact h0)
  | box cx cy w h theta =>
    refine keeps_divisor_bind _ _ _ (keeps_divisor_CHECK _ va 8 h0) ?_
    intro v hv
    rw [← hv]
    exact keeps_divisor_four_lines v
      ![(_, _, _, _), (_, _, _, _), (_, _, _, _), (_, _, _, _)] (by rw [hv]; exact h0)
  | roundrect cx cy w h theta corner_r n_corner_step =>
    refine keeps_divisor_bind _ _ _ (keeps_divisor_CHECK _ va _ h0) ?_
    intro v hv
    rw [← hv]
    have h4 := keeps_divisor_four_lines v
      ![(cx - cosf theta * (w / 2 - corner_r) - -sinf theta * h / 2,
          cy - sinf theta * (w / 2 - corner_r) - cosf theta * h / 2,
          cx + cosf theta * (w / 2 - corner_r) - -sinf theta * h / 2,
          cy + sinf theta * (w / 2 - corner_r) - cosf theta * h / 2),
        (cx + cosf theta * w / 2 - -sinf theta * (h / 2 - corner_r),
          cy + sinf theta * w / 2 - cosf theta * (h / 2 - corner_r),
          cx + cosf theta * w / 2 + -sinf theta * (h / 2 - corner_r),
          cy + sinf theta * w / 2 + cosf theta * (h / 2 - corner_r)),
        (cx + cosf theta * (w / 2 - corner_r) + -sinf theta * h / 2,
          cy + sinf theta * (w / 2 - corner_r) + cosf theta * h / 2,
          cx - cosf theta * (w / 2 - corner_r) + -sinf theta * h / 2,
          cy - sinf theta * (w / 2 - corner_r) + cosf theta * h / 2),
        (cx - cosf theta * w / 2 + -sinf theta * (h / 2 - corner_r),
          cy - sinf theta * w / 2 + cosf theta * (h / 2 - corner_r),
          cx - cosf theta * w / 2 - -sinf theta * (h / 2 - corner_r),
          cy - sinf theta * w / 2 - cosf theta * (h / 2 - corner_r))]
      (by rw [hv]; exact h0)
    simp only [bind_assoc]
    have h5 := keeps_divisor_bind v.stride _
      (fun va => for_loop (fun va corner =>
          for_loop (roundrect_step cosf sinf cx cy w h theta corner_r n_corner_step corner)
            0 ((n_corner_step + 1) % 2 ^ 64) va) 0 4 va) h4
      (fun w1 hw1 => keeps_divisor_for_loop _ _ (fun w2 corner hw2 =>
          keeps_divisor_for_loop _ _ (fun w3 i hw3 => by
            rw [← hw3]
            exact keeps_divisor_curve_step w3 _ _ _) 0 _ w2 hw2) 0 4 w1 hw1)
    simpa only [bind_assoc] using h5
  | circle cx cy r n_step =>
    exact keeps_divisor_curve va _ _ n_step (circle_point cosf sinf cx cy r n_step) h0
  | arc cx cy r theta0 theta1 n_step =>
    exact keeps_divisor_curve va _ _ n_step
      (arc_point cosf sinf cx cy r theta0 theta1 n_step) h0
  | tex_append x y tx ty => exact keeps_divisor_tex_append va x y tx ty h0
  | extend_project src c0 c1 c2 c3 c4 c5 =>
    exact keeps_divisor_extend_project va src c0 c1 c2 c3 c4 c5 h0
  | trace_append ax ay bx «by» t => exact keeps_divisor_trace_append va ax ay bx «by» t h0
  | via_append x y r r_inside => exact keeps_divisor_via_append va x y r r_inside h0

/-- A sequence of exported operations on a buffer with a non-zero stride runs
without a division by zero. -/
theorem keeps_divisor_run_ops (cosf sinf : ℚ → ℚ) (ops : List Op) (va : vertex_array)
    (h0 : va.stride ≠ 0) : keeps_divisor va.stride (run_ops cosf sinf va ops) := by
  induction ops generalizing va with
  | nil => exact keeps_divisor_ok _ _ rfl
  | cons op rest ih =>
    refine keeps_divisor_bind _ _ _ (keeps_divisor_apply_op cosf sinf va op h0) ?_
    intro v hv
    rw [← hv]
    exact ih v (by rw [hv]; exact h0)

/-! ## The arc span -/

/-- The span of an arc is non-negative whenever `theta1 - theta0` is not below
minus one turn. -/
theorem arc_delta_theta_nonneg (theta0 theta1 : ℚ) (h : -(M_PI * 2) ≤ theta1 - theta0) :
    0 ≤ arc_delta_theta theta0 theta1 := by
  unfold arc_delta_theta
  simp only
  split
  · linarith
  · linarith

/-- Below minus one turn the span stays negative. -/
theorem arc_delta_theta_neg (theta0 theta1 : ℚ) (h : theta1 - theta0 < -(M_PI * 2)) :
    arc_delta_theta theta0 theta1 < 0 := by
  have hpi : 0 < M_PI := by
    unfold M_PI
    norm_num
  unfold arc_delta_theta
  simp only
  split
  · linarith
  · linarith

/-! ## Claims -/

/-- C1 (growth sufficiency), evaluated on the code: a full one-slot
plain-vertex buffer (`size = index = 1`) asked for room for one more element.
The growth check returns normally, yet the capacity it leaves is still 1,
below `index + n = 2`: the new block has as many slots as the old one. -/
theorem check_grow_returns_without_room :
    vertex_array_check_grow ⟨1, 1, 1, 8, [[1, 2]]⟩ 1 = .ok ⟨1, 1, 1, 8, [[1, 2]]⟩ ∧
      ¬ (1 : Nat) ≥ 1 + 1 := by
  decide

/-- C2 (ordering invariant), evaluated on the code: two records appended to a
fresh buffer of initial capacity 1.  The first append succeeds; the second
finds no room, the growth check returns without growing, and the store at slot
1 falls outside the one-slot block.  The run does not end with `count = 2` and
the second record in slot 1. -/
theorem append_past_capacity_overruns :
    alloc_then_append 1 [(1, 2), (3, 4)]
      = some (.error (.out_of_bounds, ⟨1, 1, 1, 8, [[1, 2]]⟩)) := by
  decide

/-- C3 (invariant `index ≤ size`), evaluated on the code: after one append to a
fresh buffer of capacity 1 the cursor equals the capacity; for the next append
`CHECK(1)` returns normally with the capacity unchanged, and the unchecked
appender then stores at slot `index = size`, outside the block; its closing
`index++` would leave `index = 2` above `size = 1`.  Nothing on this path
calls `abort()`. -/
theorem check_leaves_cursor_at_capacity :
    alloc_then_append 1 [(1, 2)] = some (.ok ⟨1, 1, 1, 8, [[1, 2]]⟩) ∧
      CHECK sizeof_vertex_xy ⟨1, 1, 1, 8, [[1, 2]]⟩ 1 = .ok ⟨1, 1, 1, 8, [[1, 2]]⟩ ∧
      _vertex_xy_array_append ⟨1, 1, 1, 8, [[1, 2]]⟩ 3 4
        = .error (.out_of_bounds, ⟨1, 1, 1, 8, [[1, 2]]⟩) ∧
      (advance ⟨1, 1, 1, 8, [[1, 2]]⟩).index = 2 ∧ (advance ⟨1, 1, 1, 8, [[1, 2]]⟩).size = 1 := by
  decide

/-- C4 (count as a high-water mark), evaluated on the code: a buffer holding
three records whose cursor was rewound to 1 (`count = 3`, `index = 1`).  Each
of the four typed appenders returns with `index = 2` and `count = 2`: the count
has dropped from 3, it is not `max 3 2`. -/
theorem append_after_rewind_lowers_count :
    (vertex_array_seek_set ⟨4, 3, 3, 8, [[1, 1], [2, 2], [3, 3], [0, 0]]⟩ 1 >>= fun va =>
        vertex_xy_array_append va 9 9)
      = .ok ⟨4, 2, 2, 8, [[1, 1], [9, 9], [3, 3], [0, 0]]⟩ ∧
    tex_array_append ⟨4, 3, 1, 16, [[1, 1, 0, 0], [2, 2, 0, 0], [3, 3, 0, 0], [0, 0, 0, 0]]⟩
        9 9 5 5
      = .ok ⟨4, 2, 2, 16, [[1, 1, 0, 0], [9, 9, 5, 5], [3, 3, 0, 0], [0, 0, 0, 0]]⟩ ∧
    trace_array_append
        ⟨4, 3, 1, 20, [[1, 1, 0, 0, 0], [2, 2, 0, 0, 0], [3, 3, 0, 0, 0], [0, 0, 0, 0, 0]]⟩
        9 9 5 5 7
      = .ok ⟨4, 2, 2, 20,
          [[1, 1, 0, 0, 0], [9, 9, 5, 5, 7], [3, 3, 0, 0, 0], [0, 0, 0, 0, 0]]⟩ ∧
    (via_array_append ⟨4, 3, 1, 16, [[1, 1, 1, 0], [2, 2, 1, 0], [3, 3, 1, 0], [0, 0, 0, 0]]⟩
        9 9 2 1).map (fun va => (va.index, va.count)) = .ok (2, 2) ∧
    max 3 (1 + 1) = 3 := by
  decide

/-- C5 (concatenation), evaluated on the code: `A` and `B` are one-record
buffers of capacity 1 built by one append each.  In `vertex_array_concat(A, B)`
the growth check returns without growing `A`, and the bulk copy to slot 1 of
`A` falls outside its one-slot block: `A` does not end up holding its record
followed by the record of `B`. -/
theorem concat_without_room_overruns :
    alloc_then_append 1 [(1, 2)] = some (.ok ⟨1, 1, 1, 8, [[1, 2]]⟩) ∧
      alloc_then_append 1 [(3, 4)] = some (.ok ⟨1, 1, 1, 8, [[3, 4]]⟩) ∧
      vertex_array_concat ⟨1, 1, 1, 8, [[1, 2]]⟩ ⟨1, 1, 1, 8, [[3, 4]]⟩
        = .error (.out_of_bounds, ⟨1, 1, 1, 8, [[1, 2]]⟩) := by
  decide

/-- C6 (overflow guard): for a buffer with `stride ≥ 1` on the growth path of
`vertex_array_check_grow` (no wrap abort, and the room test `index + n <= size`
false), (1) the machine test `size > SIZE_MAX/2/stride` holds exactly when the
product `size * stride` of unbounded integers exceeds `SIZE_MAX/2`; (2) when it
holds the call aborts with the buffer as it was; (3) whenever the call returns
normally, the new capacity times the stride is at most `SIZE_MAX`. -/
theorem overflow_guard_exact (va : vertex_array) (n : Nat) (hs : 1 ≤ va.stride)
    (hpath : ¬ (va.index + n) % 2 ^ 64 ≤ va.size) :
    (va.size > SIZE_MAX / 2 / va.stride ↔ va.size * va.stride > SIZE_MAX / 2) ∧
    (va.size > SIZE_MAX / 2 / va.stride →
      vertex_array_check_grow va n = .error (.abort, va)) ∧
    (∀ va1, vertex_array_check_grow va n = .ok va1 → va1.size * va1.stride ≤ SIZE_MAX) := by
  have hpos : 0 < va.stride := hs
  have hne : va.stride ≠ 0 := Nat.pos_iff_ne_zero.1 hpos
  refine ⟨?_, ?_, ?_⟩
  · exact Nat.div_lt_iff_lt_mul hpos
  · intro hg
    unfold vertex_array_check_grow
    split
    · rfl
    · unfold _vertex_array_check_grow
      rw [if_neg hne, if_pos hg]
  · intro va1 h
    unfold vertex_array_check_grow at h
    split at h
    · cases h
    · unfold _vertex_array_check_grow at h
      rw [if_neg hne] at h
      split at h
      · cases h
      · simp only at h
        split at h
        · cases h
        · split at h
          · cases h
          · rename_i new_block hc
            have hcap := (calloc_eq_some _ _ _ hc).1
            split at h
            · cases h
            · injection h with h
              rw [← h]
              exact hcap

/-- Witness for C6 at two inputs: a full buffer of `2^60` eight-byte slots,
the smallest capacity the guard rejects, and a full four-slot buffer, for
which the call returns. -/
theorem overflow_guard_exact_witness :
    vertex_array_check_grow ⟨2 ^ 60, 2 ^ 60, 2 ^ 60, 8, List.replicate (2 ^ 60) [0, 0]⟩ 1
        = .error (.abort, ⟨2 ^ 60, 2 ^ 60, 2 ^ 60, 8, List.replicate (2 ^ 60) [0, 0]⟩) ∧
    ((2 : Nat) ^ 60 > SIZE_MAX / 2 / 8 ↔ 2 ^ 60 * 8 > SIZE_MAX / 2) ∧
    vertex_array_check_grow ⟨4, 4, 4, 8, List.replicate 4 [0, 0]⟩ 1
        = .ok ⟨4, 4, 4, 8, List.replicate 4 [0, 0]⟩ ∧
    4 * 8 ≤ SIZE_MAX :=
  ⟨(overflow_guard_exact ⟨2 ^ 60, 2 ^ 60, 2 ^ 60, 8, List.replicate (2 ^ 60) [0, 0]⟩ 1
      (by decide) (by decide)).2.1 (by decide),
   (overflow_guard_exact ⟨2 ^ 60, 2 ^ 60, 2 ^ 60, 8, List.replicate (2 ^ 60) [0, 0]⟩ 1
      (by decide) (by decide)).1,
   by decide,
   (overflow_guard_exact ⟨4, 4, 4, 8, List.replicate 4 [0, 0]⟩ 1 (by decide) (by decide)).2.2
      ⟨4, 4, 4, 8, List.replicate 4 [0, 0]⟩ (by decide)⟩

/-- C7 as stated fails: the buffer `vertex_array_alloc(2^63 + 5, 0)` has its
cursor at 0 and room for `n = 2^63` more elements (`index + n ≤ size`), yet
`size > SIZE_MAX - n`, so the wrap test at the head of
`vertex_array_check_grow` aborts before the room test is reached. -/
theorem check_grow_room_but_abort :
    vertex_array_alloc (2 ^ 63 + 5) 0
      = some ⟨2 ^ 63 + 5, 0, 0, 0, List.replicate (2 ^ 63 + 5) (zero_slot 0)⟩ ∧
    (0 : Nat) + 2 ^ 63 ≤ 2 ^ 63 + 5 ∧
    vertex_array_check_grow ⟨2 ^ 63 + 5, 0, 0, 0, List.replicate (2 ^ 63 + 5) (zero_slot 0)⟩
        (2 ^ 63)
      = .error (.abort, ⟨2 ^ 63 + 5, 0, 0, 0, List.replicate (2 ^ 63 + 5) (zero_slot 0)⟩) := by
  refine ⟨?_, by decide, ?_⟩
  · unfold vertex_array_alloc calloc
    rw [if_pos (by decide)]
  · unfold vertex_array_check_grow
    rw [if_pos (by decide)]

/-- C7, amended: when `size + n` is representable (the wrap test passes) and
`index + n ≤ size`, the growth check returns normally and the buffer is the
one it was given, in every field and every slot. -/
theorem check_grow_noop (va : vertex_array) (n : Nat) (hw : va.size + n ≤ SIZE_MAX)
    (hroom : va.index + n ≤ va.size) :
    vertex_array_check_grow va n = .ok va :=
  check_grow_of_room va n hw hroom

/-- Witness for C7, amended: a four-slot buffer with one record, asked for
room for three. -/
theorem check_grow_noop_witness :
    vertex_array_check_grow ⟨4, 1, 1, 8, [[1, 2], [0, 0], [0, 0], [0, 0]]⟩ 3
      = .ok ⟨4, 1, 1, 8, [[1, 2], [0, 0], [0, 0], [0, 0]]⟩ :=
  check_grow_noop ⟨4, 1, 1, 8, [[1, 2], [0, 0], [0, 0], [0, 0]]⟩ 3 (by decide) (by decide)

/-- C8 (growth preserves contents): whenever `vertex_array_check_grow(va, n)`
returns normally, for any stride and any request `n` of type `size_t`, the new
capacity is at least the old one, every slot below the old capacity holds the
record it held before, and `index`, `count` and `stride` are unchanged. -/
theorem check_grow_preserves (va va1 : vertex_array) (n : Nat) (hn : n ≤ SIZE_MAX)
    (h : vertex_array_check_grow va n = .ok va1) :
    va.size ≤ va1.size ∧ (∀ i, i < va.size → va1.data[i]? = va.data[i]?) ∧
      va1.index = va.index ∧ va1.count = va.count ∧ va1.stride = va.stride := by
  rcases check_grow_ok_cases va va1 n hn h with rfl | ⟨hlen, rfl⟩
  · exact ⟨le_refl _, fun _ _ => rfl, rfl, rfl, rfl⟩
  · refine ⟨?_, ?_, rfl, rfl, rfl⟩
    · show va.size ≤ if va.size = 0 then 1024 else va.size
      split <;> omega
    · intro i hi
      show (va.data.take va.size ++ _)[i]? = va.data[i]?
      rw [List.getElem?_append_left (by simp; omega), List.getElem?_take_of_lt hi]

/-- Witness for C8: a full two-slot buffer asked for one more element; the
call returns on the growth path with a new block holding the same two records. -/
theorem check_grow_preserves_witness :
    (2 : Nat) ≤ 2 ∧
      (∀ i, i < 2 → ([[1, 2], [3, 4]] : List Slot)[i]? = ([[1, 2], [3, 4]] : List Slot)[i]?) ∧
      (2 : Nat) = 2 ∧ (2 : Nat) = 2 ∧ (8 : Nat) = 8 :=
  check_grow_preserves ⟨2, 2, 2, 8, [[1, 2], [3, 4]]⟩ ⟨2, 2, 2, 8, [[1, 2], [3, 4]]⟩ 1
    (by decide) (by decide)

/-- C9 (minimum first growth): for a buffer of capacity 0 (so its cursor is 0
too) with `stride ≥ 1` and `1024 * stride` representable, and a request
`1 ≤ n` of type `size_t`, the growth check returns with `size = 1024`, with
`index`, `count` and `stride` as they were, and with a block of 1024
zero-initialised slots. -/
theorem check_grow_first_growth (va : vertex_array) (n : Nat) (hsize : va.size = 0)
    (hidx : va.index ≤ va.size) (hs : 1 ≤ va.stride) (hrep : 1024 * va.stride ≤ SIZE_MAX)
    (hn1 : 1 ≤ n) (hn : n ≤ SIZE_MAX) :
    vertex_array_check_grow va n
      = .ok { va with size := 1024, data := List.replicate 1024 (zero_slot va.stride) } := by
  have hi : va.index = 0 := by omega
  have hne : va.stride ≠ 0 := by omega
  have hmod : (va.index + n) % 2 ^ 64 = n := by
    rw [hi, Nat.zero_add]
    exact Nat.mod_eq_of_lt (by unfold SIZE_MAX at hn; omega)
  have hguard : ¬ va.size > SIZE_MAX / 2 / va.stride := by
    rw [hsize]
    exact Nat.not_lt_zero _
  rw [check_grow_growth_path va n (by rw [hsize]; omega) (by rw [hmod, hsize]; omega),
    check_grow_inner_eq va n hne hguard (by rw [hsize]; omega)]
  simp only [hsize, if_true, calloc_of_le 1024 va.stride hrep, Nat.zero_mul, memcpy_zero]

/-- Witness for C9: a fresh plain-vertex buffer of capacity 0 asked for one slot. -/
theorem check_grow_first_growth_witness :
    vertex_array_check_grow ⟨0, 0, 0, 8, []⟩ 1
      = .ok ⟨1024, 0, 0, 8, List.replicate 1024 (zero_slot 8)⟩ :=
  check_grow_first_growth ⟨0, 0, 0, 8, []⟩ 1 rfl (by decide) (by decide) (by decide)
    (by decide) (by decide)

/-- C10 (seek): for `n < size`, `vertex_array_seek_set(va, n)` returns the
buffer with `index = n` and `count = max count n`, every other field and the
storage as they were, so `count` does not decrease; for `n ≥ size` the
assertion `n < va->size` fails. -/
theorem seek_set_spec (va : vertex_array) (n : Nat) :
    (n < va.size →
      vertex_array_seek_set va n = .ok { va with index := n, count := max va.count n } ∧
        va.count ≤ max va.count n) ∧
    (va.size ≤ n → vertex_array_seek_set va n = .error (.assert_fail, va)) := by
  constructor
  · intro h
    refine ⟨?_, le_max_left _ _⟩
    unfold vertex_array_seek_set
    rw [if_neg (not_not.2 h)]
    by_cases hc : va.count < n
    · simp [hc, max_eq_right (Nat.le_of_lt hc)]
    · simp [hc, max_eq_left (Nat.le_of_not_lt hc)]
  · intro h
    unfold vertex_array_seek_set
    rw [if_pos (by omega)]

/-- Witness for C10: on a four-slot buffer with `count = 3`, a seek to 1 keeps
the count, a seek to 3 is accepted, and a seek to 4 fails the assertion. -/
theorem seek_set_spec_witness :
    vertex_array_seek_set ⟨4, 3, 3, 8, [[1, 1], [2, 2], [3, 3], [0, 0]]⟩ 1
        = .ok ⟨4, 3, 1, 8, [[1, 1], [2, 2], [3, 3], [0, 0]]⟩ ∧
    vertex_array_seek_set ⟨4, 3, 3, 8, [[1, 1], [2, 2], [3, 3], [0, 0]]⟩ 4
        = .error (.assert_fail, ⟨4, 3, 3, 8, [[1, 1], [2, 2], [3, 3], [0, 0]]⟩) :=
  ⟨((seek_set_spec ⟨4, 3, 3, 8, [[1, 1], [2, 2], [3, 3], [0, 0]]⟩ 1).1 (by decide)).1,
   (seek_set_spec ⟨4, 3, 3, 8, [[1, 1], [2, 2], [3, 3], [0, 0]]⟩ 4).2 (by decide)⟩

/-! ## Claims C11 to C20 -/

/-- C11 (idempotent reset): for every buffer `b` whose block has `b.size`
slots of `b.stride` bytes, whatever its cursor, count and stored records, and
every sequence `recs` of plain-vertex appends, the run of `recs` on
`vertex_array_clear(b)` and the run of `recs` on the buffer
`vertex_array_alloc(b.size, b.stride)` returns have the same outcome: both
return, with the same `index`, `count` and `size` and the same record in every
slot below `count`, or both stop with the same fault. -/
theorem clear_then_append_as_fresh (b : vertex_array) (recs : List (ℚ × ℚ))
    (hlen : b.data.length = b.size) (hrep : b.size * b.stride ≤ SIZE_MAX) :
    ∃ fresh, vertex_array_alloc b.size b.stride = some fresh ∧
      same_outcome same_visible (append_all (vertex_array_clear b) recs)
        (append_all fresh recs) := by
  refine ⟨⟨b.size, 0, 0, b.stride, List.replicate b.size (zero_slot b.stride)⟩, ?_, ?_⟩
  · unfold vertex_array_alloc
    rw [calloc_of_le _ _ hrep]
  · refine same_outcome_mono agree_below_cursor same_visible _ _
      (append_all_agree recs _ _ ?_) ?_
    · exact ⟨rfl, rfl, rfl, rfl, by simpa [vertex_array_clear] using hlen, le_refl _,
        fun i hi => absurd hi (Nat.not_lt_zero i)⟩
    · intro v1 v2 h
      obtain ⟨hs, hc, hi, _, _, hci, hag⟩ := h
      exact ⟨hi, hc, hs, fun i hlt => hag i (lt_of_lt_of_le hlt hci)⟩

/-- Witness for C11: a two-slot buffer holding two records with its cursor
rewound to 1, cleared, against a fresh two-slot buffer; one append, for which
both runs return, and three appends, for which both stop. -/
theorem clear_then_append_as_fresh_witness :
    (∃ fresh, vertex_array_alloc 2 8 = some fresh ∧
      same_outcome same_visible
        (append_all (vertex_array_clear ⟨2, 2, 1, 8, [[5, 5], [6, 6]]⟩) [(1, 2)])
        (append_all fresh [(1, 2)])) ∧
    (∃ fresh, vertex_array_alloc 2 8 = some fresh ∧
      same_outcome same_visible
        (append_all (vertex_array_clear ⟨2, 2, 1, 8, [[5, 5], [6, 6]]⟩)
          [(1, 2), (3, 4), (5, 6)])
        (append_all fresh [(1, 2), (3, 4), (5, 6)])) :=
  ⟨clear_then_append_as_fresh ⟨2, 2, 1, 8, [[5, 5], [6, 6]]⟩ [(1, 2)] rfl (by decide),
   clear_then_append_as_fresh ⟨2, 2, 1, 8, [[5, 5], [6, 6]]⟩ [(1, 2), (3, 4), (5, 6)] rfl
     (by decide)⟩

/-- C12 as stated fails: with `n_step = 4` the circle generator advances cursor
and count of an empty 16-slot buffer by 8, not by `2 * (4 + 1) = 10`.  (The
count does not depend on the values of `cosf` and `sinf`; constants stand in
for them here.) -/
theorem circle_four_steps_emits_eight :
    (vertex_xy_array_circle (fun _ => 1) (fun _ => 0) ⟨16, 0, 0, 8, List.replicate 16 [0, 0]⟩
        0 0 1 4).map (fun v => (v.index, v.count)) = .ok (8, 8) ∧
      (8 : Nat) ≠ 2 * (4 + 1) := by
  decide

/-- C12, amended: on a well-formed plain-vertex buffer with cursor = count
and room at the cursor for the `(n_step + 1) * 2` vertices it reserves,
`vertex_xy_array_circle` returns and advances cursor and count by exactly
`2 * n_step` vertices (by 1 when `n_step = 0`), whatever `cosf` and `sinf`
are; so for `n_step = 4` it emits exactly 8 vertices. -/
theorem circle_vertex_count (cosf sinf : ℚ → ℚ) (va : vertex_array) (cx cy r : ℚ)
    (n_step : Nat) (hv : valid va) (hs : va.stride = sizeof_vertex_xy)
    (hc : va.index = va.count) (hroom : va.index + (n_step + 1) * 2 ≤ va.size) :
    ∃ va1, vertex_xy_array_circle cosf sinf va cx cy r n_step = .ok va1 ∧
      va1.index = va.index + (if n_step = 0 then 1 else 2 * n_step) ∧
      va1.count = va.count + (if n_step = 0 then 1 else 2 * n_step) := by
  obtain ⟨va1, hrun, _, hidx, hcount, _⟩ :=
    curve_run (circle_point cosf sinf cx cy r n_step) n_step va hv hs hroom
  refine ⟨va1, ?_, hidx, by rw [hcount, hc]⟩
  rw [circle_unfold cosf sinf va cx cy r n_step (room_representable va _ hv hs hroom)]
  exact hrun

/-- Witness for C12, amended: `n_step = 4` on an empty 16-slot buffer. -/
theorem circle_vertex_count_witness :
    ∃ va1, vertex_xy_array_circle (fun _ => 1) (fun _ => 0)
        ⟨16, 0, 0, 8, List.replicate 16 [0, 0]⟩ 0 0 1 4 = .ok va1 ∧
      va1.index = 0 + (if 4 = 0 then 1 else 2 * 4) ∧
      va1.count = 0 + (if 4 = 0 then 1 else 2 * 4) :=
  circle_vertex_count (fun _ => 1) (fun _ => 0) ⟨16, 0, 0, 8, List.replicate 16 [0, 0]⟩ 0 0 1 4
    (by decide) rfl rfl (by decide)

/-- C13 as stated fails: with `n_corner_step = 0` the rounded-rectangle
generator advances cursor and count of an empty 16-slot buffer by 12, not by
`8 + 4 * (2 * (0 + 1)) = 16`: each corner emits its single sample once. -/
theorem roundrect_zero_steps_emits_twelve :
    (vertex_xy_array_roundrect (fun _ => 1) (fun _ => 0)
        ⟨16, 0, 0, 8, List.replicate 16 [0, 0]⟩ 0 0 4 2 0 1 0).map
        (fun v => (v.index, v.count)) = .ok (12, 12) ∧
      (12 : Nat) ≠ 8 + 4 * (2 * (0 + 1)) := by
  decide

/-- C13, amended: on a well-formed plain-vertex buffer with cursor = count
and room at the cursor for the `(n_corner_step + 1) * 2 * 4 + 8` vertices it
reserves, `vertex_xy_array_roundrect` returns and advances cursor and count by
exactly `8 + 4 * (2 * n_corner_step)` vertices (by `8 + 4 = 12` when
`n_corner_step = 0`), whatever `cosf` and `sinf` are. -/
theorem roundrect_vertex_count (cosf sinf : ℚ → ℚ) (va : vertex_array)
    (cx cy w h theta corner_r : ℚ) (n_corner_step : Nat) (hv : valid va)
    (hs : va.stride = sizeof_vertex_xy) (hc : va.index = va.count)
    (hroom : va.index + ((n_corner_step + 1) * 2 * 4 + 8) ≤ va.size) :
    ∃ va1, vertex_xy_array_roundrect cosf sinf va cx cy w h theta corner_r n_corner_step
        = .ok va1 ∧
      va1.index = va.index + (if n_corner_step = 0 then 12 else 8 + 4 * (2 * n_corner_step)) ∧
      va1.count = va.count + (if n_corner_step = 0 then 12 else 8 + 4 * (2 * n_corner_step)) := by
  have hE := roundrect_corner_emit_length cosf sinf cx cy w h theta corner_r n_corner_step
  have hL : (roundrect_edge_points cosf sinf cx cy w h theta corner_r).length = 8 := rfl
  have htot : (roundrect_edge_points cosf sinf cx cy w h theta corner_r ++
      roundrect_corner_emit cosf sinf cx cy w h theta corner_r n_corner_step).length
      = if n_corner_step = 0 then 12 else 8 + 4 * (2 * n_corner_step) := by
    rw [List.length_append, hL, hE]
    split <;> omega
  obtain ⟨va1, hrun, _, _, _, hidx, hcount, _, _, _⟩ :=
    reserve_then_raw va ((n_corner_step + 1) * 2 * 4 + 8)
      (roundrect_edge_points cosf sinf cx cy w h theta corner_r ++
        roundrect_corner_emit cosf sinf cx cy w h theta corner_r n_corner_step)
      hv hs hroom (by rw [htot]; split <;> omega)
  refine ⟨va1, ?_, by rw [hidx, htot], ?_⟩
  · rw [roundrect_unfold cosf sinf va cx cy w h theta corner_r n_corner_step
      (room_representable va _ hv hs hroom), CHECK_room va _ hv hs hroom, ok_bind,
      append_all_eq_raw _ va hv hs (by rw [hL]; omega), ← raw_append_all_append]
    rw [CHECK_room va _ hv hs hroom, ok_bind] at hrun
    exact hrun
  · rw [hcount (by
      intro h0
      rw [h0] at htot
      simp only [List.length_nil] at htot
      split at htot <;> omega), htot, hc]

/-- Witness for C13, amended: `n_corner_step = 0` on an empty 16-slot buffer. -/
theorem roundrect_vertex_count_witness :
    ∃ va1, vertex_xy_array_roundrect (fun _ => 1) (fun _ => 0)
        ⟨16, 0, 0, 8, List.replicate 16 [0, 0]⟩ 0 0 4 2 0 1 0 = .ok va1 ∧
      va1.index = 0 + (if 0 = 0 then 12 else 8 + 4 * (2 * 0)) ∧
      va1.count = 0 + (if 0 = 0 then 12 else 8 + 4 * (2 * 0)) :=
  roundrect_vertex_count (fun _ => 1) (fun _ => 0) ⟨16, 0, 0, 8, List.replicate 16 [0, 0]⟩
    0 0 4 2 0 1 0 (by decide) rfl rfl (by decide)

/-- C14 (affine projection): for well-formed textured-vertex buffers `dest` and
`src` (distinct objects), `dest` having room for `src.count` records at its
cursor `d`, and every transform `c0 .. c5`, `tex_extend_project` returns with
`src` as it was, `dest.index = d + src.count`,
`dest.count = max (old dest.count) (d + src.count)`, capacity, stride and every
slot of `dest` outside `d .. d + src.count - 1` as they were, and slot `d + i`
holding `(c0*x + c1*y + c2, c3*x + c4*y + c5, tx, ty)` whenever record `i` of
`src` is `(x, y, tx, ty)`, in exact arithmetic. -/
theorem tex_extend_project_affine (dest src : vertex_array) (c0 c1 c2 c3 c4 c5 : ℚ)
    (hd : valid dest) (hsv : valid src) (hds : dest.stride = sizeof_inst_tex)
    (hss : src.stride = sizeof_inst_tex) (hroom : dest.index + src.count ≤ dest.size) :
    ∃ d1, tex_extend_project dest src c0 c1 c2 c3 c4 c5 = .ok (d1, src) ∧
      d1.index = dest.index + src.count ∧
      d1.count = max dest.count (dest.index + src.count) ∧
      d1.size = dest.size ∧ d1.stride = dest.stride ∧
      (∀ j, j < dest.index ∨ dest.index + src.count ≤ j → d1.data[j]? = dest.data[j]?) ∧
      (∀ i x y tx ty, i < src.count → src.data[i]? = some [x, y, tx, ty] →
        d1.data[dest.index + i]? = some [c0 * x + c1 * y + c2, c3 * x + c4 * y + c5, tx, ty]) := by
  obtain ⟨hlen, hrep, hi, _⟩ := hd
  obtain ⟨hlen2, _, _, hc2⟩ := hsv
  have h16 : dest.stride = 16 := hds
  have hw : dest.size + src.count ≤ SIZE_MAX := by
    rw [h16] at hrep
    unfold SIZE_MAX at hrep ⊢
    omega
  have m3 : (dest.index + src.count) % 2 ^ 64 = dest.index + src.count :=
    Nat.mod_eq_of_lt (by unfold SIZE_MAX at hw; omega)
  obtain ⟨d1, hrun, hsz, hcnt, hidx, hst, _, hnew, hold⟩ :=
    project_loop_room src c0 c1 c2 c3 c4 c5 src.count 0 dest (by omega) (by omega)
  have hproj : ∀ i x y tx ty, i < src.count → src.data[i]? = some [x, y, tx, ty] →
      d1.data[dest.index + i]?
        = some [c0 * x + c1 * y + c2, c3 * x + c4 * y + c5, tx, ty] := by
    intro i x y tx ty hi2 hrec
    rw [hnew i (Nat.zero_le _) (by omega), hrec]
    rfl
  have hold2 : ∀ j, j < dest.index ∨ dest.index + src.count ≤ j →
      d1.data[j]? = dest.data[j]? := by
    intro j hj
    exact hold j (by omega)
  unfold tex_extend_project
  rw [if_neg (by simp [hds]), if_neg (by simp [hss]),
    check_grow_of_room dest src.count hw hroom]
  simp only
  rw [if_neg (by omega), hrun]
  simp only [hidx, hcnt, m3]
  by_cases hlt : dest.count < dest.index + src.count
  · rw [if_pos hlt]
    exact ⟨_, rfl, rfl, (max_eq_right (Nat.le_of_lt hlt)).symm, hsz, hst, hold2, hproj⟩
  · rw [if_neg hlt]
    exact ⟨_, rfl, rfl, (max_eq_left (Nat.le_of_not_lt hlt)).symm, hsz, hst, hold2, hproj⟩

/-- Witness for C14: the record `(1, 0, 1/2, 1/2)` through the transform
`c = [0, -1, 0, 1, 0, 0]` lands in slot 0 of an empty one-slot buffer as
`(0, 1, 1/2, 1/2)`. -/
theorem tex_extend_project_affine_witness :
    ∃ d1, tex_extend_project ⟨1, 0, 0, 16, [[0, 0, 0, 0]]⟩ ⟨1, 1, 1, 16, [[1, 0, 1 / 2, 1 / 2]]⟩
        0 (-1) 0 1 0 0 = .ok (d1, ⟨1, 1, 1, 16, [[1, 0, 1 / 2, 1 / 2]]⟩) ∧
      d1.index = 1 ∧ d1.count = 1 ∧ d1.data[0]? = some [0, 1, 1 / 2, 1 / 2] := by
  obtain ⟨d1, hrun, hidx, hcnt, _, _, _, hproj⟩ :=
    tex_extend_project_affine ⟨1, 0, 0, 16, [[0, 0, 0, 0]]⟩
      ⟨1, 1, 1, 16, [[1, 0, 1 / 2, 1 / 2]]⟩ 0 (-1) 0 1 0 0 (by decide) (by decide) rfl rfl
      (by decide)
  have h0 := hproj 0 1 0 (1 / 2) (1 / 2) (by decide) rfl
  refine ⟨d1, hrun, hidx, hcnt, ?_⟩
  rw [show (0 : Nat) = 0 + 0 from rfl, h0]
  norm_num

/-- C15 (via derived field): on a well-formed via-stride buffer with room at
its cursor, for every `x`, `y`, `r ≠ 0` and `r_inside`, `via_array_append`
returns, stores at the old cursor the record
`(x, y, r, (r_inside / r) * (r_inside / r))` in exact rational arithmetic,
leaves every other slot as it was and advances the cursor by one. -/
theorem via_append_derived_field (va : vertex_array) (x y r r_inside : ℚ) (hv : valid va)
    (hs : va.stride = sizeof_inst_via) (hroom : va.index < va.size) (_hr : r ≠ 0) :
    via_array_append va x y r r_inside
      = .ok { va with
          data := va.data.set va.index [x, y, r, (r_inside / r) * (r_inside / r)]
          index := va.index + 1
          count := va.index + 1 } := by
  obtain ⟨hlen, hrep, _, _⟩ := hv
  have h16 : va.stride = 16 := hs
  have hw : va.size + 1 ≤ SIZE_MAX := by
    rw [h16] at hrep
    unfold SIZE_MAX at hrep ⊢
    omega
  have hmod : (va.index + 1) % 2 ^ 64 = va.index + 1 :=
    Nat.mod_eq_of_lt (by unfold SIZE_MAX at hw; omega)
  unfold via_array_append CHECK
  rw [if_neg (by simp [hs]), check_grow_of_room va 1 hw (by omega)]
  show _via_array_append va x y r r_inside = _
  unfold _via_array_append store_at_index
  rw [if_neg (by simp [hs]), if_pos (by omega)]
  simp only [Except.map, advance, hmod]

/-- Witness for C15: `r = 2`, `r_inside = 1` on an empty one-slot via buffer;
the stored `r_ins_frac_sq` is `1/4`. -/
theorem via_append_derived_field_witness :
    via_array_append ⟨1, 0, 0, 16, [[0, 0, 0, 0]]⟩ 5 7 2 1
      = .ok ⟨1, 1, 1, 16, [[5, 7, 2, 1 / 4]]⟩ := by
  rw [via_append_derived_field ⟨1, 0, 0, 16, [[0, 0, 0, 0]]⟩ 5 7 2 1 (by decide) rfl
    (by decide) (by norm_num)]
  norm_num

/-- C16 (arc sweep never negative), evaluated on the code: for `theta0 = 10`
and `theta1 = 0` the difference `-10` is negative, one turn is added once, and
the span the arc samples over is `-10 + M_PI * 2`, still negative; with
`n_step = 1` the last sample is taken at an angle below `theta0`. -/
theorem arc_span_stays_negative :
    arc_delta_theta 10 0 = -10 + M_PI * 2 ∧ arc_delta_theta 10 0 < 0 ∧
      arc_theta 10 0 1 1 < 10 := by
  have h : arc_delta_theta 10 0 = -10 + M_PI * 2 := by
    unfold arc_delta_theta
    norm_num
  refine ⟨h, ?_, ?_⟩
  · rw [h]
    unfold M_PI
    norm_num
  · unfold arc_theta
    rw [h]
    unfold M_PI
    norm_num

/-- C17 (axis-aligned box): on a well-formed plain-vertex buffer with room for
8 vertices at its cursor, `vertex_xy_array_aligned_box` returns having appended
exactly 8 vertices: the cursor advances by 8, the capacity and every slot
outside the 8 are as they were, and the 8 slots hold, in order,
`(x1,y1),(x2,y1), (x2,y1),(x2,y2), (x2,y2),(x1,y2), (x1,y2),(x1,y1)` with
`x1 = cx - w/2`, `x2 = cx + w/2`, `y1 = cy - h/2`, `y2 = cy + h/2`: four
2-vertex edges, the end of each equal to the start of the next and the end of
the fourth equal to the start of the first. -/
theorem aligned_box_output (va : vertex_array) (cx cy w h : ℚ) (hv : valid va)
    (hs : va.stride = sizeof_vertex_xy) (hroom : va.index + 8 ≤ va.size) :
    ∃ va1, vertex_xy_array_aligned_box va cx cy w h = .ok va1 ∧
      va1.index = va.index + 8 ∧ va1.size = va.size ∧
      (∀ i, i < va.index ∨ va.index + 8 ≤ i → va1.data[i]? = va.data[i]?) ∧
      va1.data[va.index]? = some [cx - w / 2, cy - h / 2] ∧
      va1.data[va.index + 1]? = some [cx + w / 2, cy - h / 2] ∧
      va1.data[va.index + 2]? = some [cx + w / 2, cy - h / 2] ∧
      va1.data[va.index + 3]? = some [cx + w / 2, cy + h / 2] ∧
      va1.data[va.index + 4]? = some [cx + w / 2, cy + h / 2] ∧
      va1.data[va.index + 5]? = some [cx - w / 2, cy + h / 2] ∧
      va1.data[va.index + 6]? = some [cx - w / 2, cy + h / 2] ∧
      va1.data[va.index + 7]? = some [cx - w / 2, cy - h / 2] ∧
      va1.data[va.index + 1]? = va1.data[va.index + 2]? ∧
      va1.data[va.index + 3]? = va1.data[va.index + 4]? ∧
      va1.data[va.index + 5]? = va1.data[va.index + 6]? ∧
      va1.data[va.index + 7]? = va1.data[va.index]? := by
  obtain ⟨va1, hrun, hsz, _, _, hidx, _, _, hnew, hold⟩ :=
    reserve_then_raw va 8 (aligned_box_points cx cy w h) hv hs hroom (le_refl _)
  have hL : (aligned_box_points cx cy w h).length = 8 := rfl
  rw [hL] at hidx hold
  have h0 := hnew 0 (by rw [hL]; omega)
  have h1 := hnew 1 (by rw [hL]; omega)
  have h2 := hnew 2 (by rw [hL]; omega)
  have h3 := hnew 3 (by rw [hL]; omega)
  have h4 := hnew 4 (by rw [hL]; omega)
  have h5 := hnew 5 (by rw [hL]; omega)
  have h6 := hnew 6 (by rw [hL]; omega)
  have h7 := hnew 7 (by rw [hL]; omega)
  simp only [aligned_box_points, List.map, xy_slot, Nat.add_zero, List.getElem?_cons_zero,
    List.getElem?_cons_succ] at h0 h1 h2 h3 h4 h5 h6 h7
  refine ⟨va1, ?_, hidx, hsz, hold, h0, h1, h2, h3, h4, h5, h6, h7, ?_, ?_, ?_, ?_⟩
  · rw [aligned_box_unfold, CHECK_room va 8 hv hs hroom, ok_bind,
      append_all_eq_raw _ va hv hs (by rw [hL]; exact hroom)]
    rw [CHECK_room va 8 hv hs hroom, ok_bind] at hrun
    exact hrun
  · rw [h1, h2]
  · rw [h3, h4]
  · rw [h5, h6]
  · rw [h7, h0]

/-- Witness for C17: the box of centre `(3, 4)`, width 2 and height 6 on an
empty 8-slot buffer. -/
theorem aligned_box_output_witness :
    ∃ va1, vertex_xy_array_aligned_box ⟨8, 0, 0, 8, List.replicate 8 [0, 0]⟩ 3 4 2 6 = .ok va1 ∧
      va1.index = 8 ∧ va1.data[0]? = some [2, 1] ∧ va1.data[1]? = some [4, 1] ∧
      va1.data[3]? = some [4, 7] ∧ va1.data[5]? = some [2, 7] ∧
      va1.data[7]? = some [2, 1] := by
  obtain ⟨va1, hrun, hidx, _, _, h0, h1, _, h3, _, h5, _, h7, _⟩ :=
    aligned_box_output ⟨8, 0, 0, 8, List.replicate 8 [0, 0]⟩ 3 4 2 6 (by decide) rfl (by decide)
  refine ⟨va1, hrun, hidx, ?_, ?_, ?_, ?_, ?_⟩
  · rw [show (0 : Nat) = 0 + 0 from rfl] at h0 ⊢
    rw [h0]; norm_num
  · rw [show (1 : Nat) = 0 + 1 from rfl]
    rw [h1]; norm_num
  · rw [show (3 : Nat) = 0 + 3 from rfl]
    rw [h3]; norm_num
  · rw [show (5 : Nat) = 0 + 5 from rfl]
    rw [h5]; norm_num
  · rw [show (7 : Nat) = 0 + 7 from rfl]
    rw [h7]; norm_num

/-- C18 (interior duplication): for `n_step ≥ 1` (with `(n_step + 1) * 2`
representable), `vertex_xy_array_circle` and `vertex_xy_array_arc` on any
buffer are the reservation followed by unchecked appends of exactly the line
list `segments p 0 n_step` of their sample points `p_i`: `2 * n_step`
vertices, segment `k` being the pair `(p_k, p_{k+1})`, that is the sequence
`p_0, p_1, p_1, ..., p_{n_step-1}, p_{n_step-1}, p_{n_step}` with the first
and last sample once and every interior sample twice.  On a well-formed
plain-vertex buffer with room for the reservation both generators return and
segment `k` sits in slots `2k`, `2k + 1` past the old cursor. -/
theorem curve_interior_duplication (cosf sinf : ℚ → ℚ) (va : vertex_array)
    (cx cy r theta0 theta1 : ℚ) (n_step : Nat) (hn : 1 ≤ n_step)
    (hrep : (n_step + 1) * 2 ≤ SIZE_MAX) :
    (vertex_xy_array_circle cosf sinf va cx cy r n_step
      = (CHECK sizeof_vertex_xy va ((n_step + 1) * 2) >>= fun v =>
          raw_append_all v (segments (circle_point cosf sinf cx cy r n_step) 0 n_step))) ∧
    (vertex_xy_array_arc cosf sinf va cx cy r theta0 theta1 n_step
      = (CHECK sizeof_vertex_xy va ((n_step + 1) * 2) >>= fun v =>
          raw_append_all v
            (segments (arc_point cosf sinf cx cy r theta0 theta1 n_step) 0 n_step))) ∧
    (∀ p : Nat → ℚ × ℚ, (segments p 0 n_step).length = 2 * n_step ∧
      ∀ k, k < n_step → (segments p 0 n_step)[2 * k]? = some (p k) ∧
        (segments p 0 n_step)[2 * k + 1]? = some (p (k + 1))) ∧
    (valid va → va.stride = sizeof_vertex_xy → va.index + (n_step + 1) * 2 ≤ va.size →
      (∃ va1, vertex_xy_array_circle cosf sinf va cx cy r n_step = .ok va1 ∧
        va1.index = va.index + 2 * n_step ∧
        ∀ k, k < n_step →
          va1.data[va.index + 2 * k]?
            = some (xy_slot (circle_point cosf sinf cx cy r n_step k)) ∧
          va1.data[va.index + 2 * k + 1]?
            = some (xy_slot (circle_point cosf sinf cx cy r n_step (k + 1)))) ∧
      (∃ va1, vertex_xy_array_arc cosf sinf va cx cy r theta0 theta1 n_step = .ok va1 ∧
        va1.index = va.index + 2 * n_step ∧
        ∀ k, k < n_step →
          va1.data[va.index + 2 * k]?
            = some (xy_slot (arc_point cosf sinf cx cy r theta0 theta1 n_step k)) ∧
          va1.data[va.index + 2 * k + 1]?
            = some (xy_slot (arc_point cosf sinf cx cy r theta0 theta1 n_step (k + 1))))) := by
  refine ⟨?_, ?_, ?_, ?_⟩
  · rw [circle_unfold cosf sinf va cx cy r n_step hrep, curve_emit_segments _ n_step hn]
  · rw [arc_unfold cosf sinf va cx cy r theta0 theta1 n_step hrep,
      curve_emit_segments _ n_step hn]
  · intro p
    refine ⟨segments_length p 0 n_step, fun k hk => ?_⟩
    have := segments_get p 0 n_step k hk
    simpa only [Nat.zero_add] using this
  · intro hv hs hroom
    constructor
    · rw [circle_unfold cosf sinf va cx cy r n_step hrep]
      exact curve_run_segments _ n_step hn va hv hs hroom
    · rw [arc_unfold cosf sinf va cx cy r theta0 theta1 n_step hrep]
      exact curve_run_segments _ n_step hn va hv hs hroom

/-- Witness for C18: `n_step = 2` on an empty 6-slot buffer, with constants
standing in for `cosf` and `sinf`. -/
theorem curve_interior_duplication_witness :
    (∃ va1, vertex_xy_array_circle (fun _ => 1) (fun _ => 0)
        ⟨6, 0, 0, 8, List.replicate 6 [0, 0]⟩ 0 0 1 2 = .ok va1 ∧
      va1.index = 0 + 2 * 2 ∧
      ∀ k, k < 2 →
        va1.data[0 + 2 * k]?
          = some (xy_slot (circle_point (fun _ => 1) (fun _ => 0) 0 0 1 2 k)) ∧
        va1.data[0 + 2 * k + 1]?
          = some (xy_slot (circle_point (fun _ => 1) (fun _ => 0) 0 0 1 2 (k + 1)))) ∧
    (∃ va1, vertex_xy_array_arc (fun _ => 1) (fun _ => 0)
        ⟨6, 0, 0, 8, List.replicate 6 [0, 0]⟩ 0 0 1 0 1 2 = .ok va1 ∧
      va1.index = 0 + 2 * 2 ∧
      ∀ k, k < 2 →
        va1.data[0 + 2 * k]?
          = some (xy_slot (arc_point (fun _ => 1) (fun _ => 0) 0 0 1 0 1 2 k)) ∧
        va1.data[0 + 2 * k + 1]?
          = some (xy_slot (arc_point (fun _ => 1) (fun _ => 0) 0 0 1 0 1 2 (k + 1)))) :=
  (curve_interior_duplication (fun _ => 1) (fun _ => 0) ⟨6, 0, 0, 8, List.replicate 6 [0, 0]⟩
    0 0 1 0 1 2 (by decide) (by decide)).2.2.2 (by decide) rfl (by decide)

/-- C19 (reservation bounds emission): when `(n_step + 1) * 2` does not wrap,
`vertex_xy_array_circle` and `vertex_xy_array_arc` are the reservation
`CHECK((n_step + 1) * 2)` followed by unchecked appends of a list of at most
`(n_step + 1) * 2` vertices; when `(n_corner_step + 1) * 2 * 4 + 8` does not
wrap, `vertex_xy_array_roundrect` is the reservation of that many vertices
followed by 8 checked appends and unchecked appends that together write at
most that many vertices.  This holds for every buffer. -/
theorem reservation_bounds_emission (cosf sinf : ℚ → ℚ) (va : vertex_array)
    (cx cy r theta0 theta1 w h theta corner_r : ℚ) (n_step n_corner_step : Nat)
    (h1 : (n_step + 1) * 2 ≤ SIZE_MAX) (h2 : (n_corner_step + 1) * 2 * 4 + 8 ≤ SIZE_MAX) :
    (vertex_xy_array_circle cosf sinf va cx cy r n_step
        = (CHECK sizeof_vertex_xy va ((n_step + 1) * 2) >>= fun v =>
            raw_append_all v
              (emit_range (curve_emit (circle_point cosf sinf cx cy r n_step) n_step) 0
                (n_step + 1))) ∧
      (emit_range (curve_emit (circle_point cosf sinf cx cy r n_step) n_step) 0
        (n_step + 1)).length ≤ (n_step + 1) * 2) ∧
    (vertex_xy_array_arc cosf sinf va cx cy r theta0 theta1 n_step
        = (CHECK sizeof_vertex_xy va ((n_step + 1) * 2) >>= fun v =>
            raw_append_all v
              (emit_range
                (curve_emit (arc_point cosf sinf cx cy r theta0 theta1 n_step) n_step) 0
                (n_step + 1))) ∧
      (emit_range (curve_emit (arc_point cosf sinf cx cy r theta0 theta1 n_step) n_step) 0
        (n_step + 1)).length ≤ (n_step + 1) * 2) ∧
    (vertex_xy_array_roundrect cosf sinf va cx cy w h theta corner_r n_corner_step
        = (CHECK sizeof_vertex_xy va ((n_corner_step + 1) * 2 * 4 + 8) >>= fun v =>
            append_all v (roundrect_edge_points cosf sinf cx cy w h theta corner_r) >>= fun v =>
            raw_append_all v
              (roundrect_corner_emit cosf sinf cx cy w h theta corner_r n_corner_step)) ∧
      (roundrect_edge_points cosf sinf cx cy w h theta corner_r).length
          + (roundrect_corner_emit cosf sinf cx cy w h theta corner_r n_corner_step).length
        ≤ (n_corner_step + 1) * 2 * 4 + 8) := by
  refine ⟨⟨circle_unfold cosf sinf va cx cy r n_step h1, ?_⟩,
    ⟨arc_unfold cosf sinf va cx cy r theta0 theta1 n_step h1, ?_⟩,
    ⟨roundrect_unfold cosf sinf va cx cy w h theta corner_r n_corner_step h2, ?_⟩⟩
  · rw [curve_emit_length]
    split <;> omega
  · rw [curve_emit_length]
    split <;> omega
  · rw [roundrect_corner_emit_length]
    have hL : (roundrect_edge_points cosf sinf cx cy w h theta corner_r).length = 8 := rfl
    rw [hL]
    split <;> omega

/-- Witness for C19: `n_step = 4` and `n_corner_step = 0`; the emitted lists
have at most 10, 10 and 16 vertices. -/
theorem reservation_bounds_emission_witness :
    (emit_range (curve_emit (circle_point (fun _ => 1) (fun _ => 0) 0 0 1 4) 4) 0 (4 + 1)).length
        ≤ (4 + 1) * 2 ∧
    (emit_range (curve_emit (arc_point (fun _ => 1) (fun _ => 0) 0 0 1 0 1 4) 4) 0
        (4 + 1)).length ≤ (4 + 1) * 2 ∧
    (roundrect_edge_points (fun _ => 1) (fun _ => 0) 0 0 4 2 0 1).length
        + (roundrect_corner_emit (fun _ => 1) (fun _ => 0) 0 0 4 2 0 1 0).length
      ≤ (0 + 1) * 2 * 4 + 8 :=
  have h := reservation_bounds_emission (fun _ => 1) (fun _ => 0)
    ⟨16, 0, 0, 8, List.replicate 16 [0, 0]⟩ 0 0 1 0 1 4 2 0 1 4 0 (by decide) (by decide)
  ⟨h.1.2, h.2.1.2, h.2.2.2⟩

/-- C20 as stated fails: `vertex_array_alloc(0, 0)` returns a buffer of stride
0, and on it the growth path divides by `va->stride = 0`, both in a direct
call `vertex_array_check_grow(va, 1)` and in a `vertex_array_concat` from a
stride-0 buffer with `count = 1` (`vertex_array_alloc(2, 0)` after
`vertex_array_seek_set(.., 1)`). -/
theorem zero_stride_divides_by_zero :
    vertex_array_alloc 0 0 = some ⟨0, 0, 0, 0, []⟩ ∧
    run_ops (fun _ => 1) (fun _ => 0) ⟨0, 0, 0, 0, []⟩ [.check_grow 1]
      = .error (.div_by_zero, ⟨0, 0, 0, 0, []⟩) ∧
    (vertex_array_alloc 2 0).map (fun v => vertex_array_seek_set v 1)
      = some (.ok ⟨2, 1, 1, 0, [[], []]⟩) ∧
    run_ops (fun _ => 1) (fun _ => 0) ⟨0, 0, 0, 0, []⟩ [.concat ⟨2, 1, 1, 0, [[], []]⟩]
      = .error (.div_by_zero, ⟨0, 0, 0, 0, []⟩) := by
  decide

/-- C20, amended: for every buffer returned by `vertex_array_alloc(n, stride)`
with `stride ≥ 1` and every subsequent sequence of exported operations on it,
no run divides by zero: the divisor `va->stride` of `SIZE_MAX/2/va->stride` is
the stride given at allocation, which no operation changes. -/
theorem alloc_nonzero_stride_never_divides_by_zero (cosf sinf : ℚ → ℚ) (n stride : Nat)
    (va : vertex_array) (hs : 1 ≤ stride) (ha : vertex_array_alloc n stride = some va)
    (ops : List Op) :
    (∀ st, run_ops cosf sinf va ops ≠ .error (.div_by_zero, st)) ∧
      ∀ v, run_ops cosf sinf va ops = .ok v → v.stride = stride := by
  have hst : va.stride = stride := by
    unfold vertex_array_alloc at ha
    split at ha
    · cases ha
    · injection ha with ha
      rw [← ha]
  have h := keeps_divisor_run_ops cosf sinf ops va (by rw [hst]; omega)
  rw [hst] at h
  exact h

/-- Witness for C20, amended: an empty plain-vertex buffer of capacity 0, one
append (which grows it to 1024 slots through the division) and a seek. -/
theorem alloc_nonzero_stride_never_divides_by_zero_witness :
    (∀ st, run_ops (fun _ => 1) (fun _ => 0) ⟨0, 0, 0, 8, []⟩
        [.xy_append 1 2, .seek_set 0] ≠ .error (.div_by_zero, st)) ∧
      ∀ v, run_ops (fun _ => 1) (fun _ => 0) ⟨0, 0, 0, 8, []⟩
        [.xy_append 1 2, .seek_set 0] = .ok v → v.stride = 8 :=
  alloc_nonzero_stride_never_divides_by_zero (fun _ => 1) (fun _ => 0) 0 8 ⟨0, 0, 0, 8, []⟩
    (by decide) (by decide) [.xy_append 1 2, .seek_set 0]

end VA
